import Mathlib

/-!
Verification of the `mirage` deduplication engine (`src/lib.rs`).

The Rust library plans filesystem mutations (`Copy`/`Symlink`/`NOP` actions)
into a write-ahead log stored in `.mirage/wal.json`, executes them with a
resumable checkpoint (`apply`), and undoes them by replaying inverted actions
in reverse order (`revert`).

Shallow embedding conventions:
* paths are lists of components, taken relative to the canonicalized target
  directory (the Rust code canonicalizes every path it stores, so all stored
  paths share the target directory as a common absolute prefix, which we drop);
* the filesystem is a finite map from paths to entries, represented as an
  association list with first-binding-wins lookup;
* the on-disk `wal.json` is carried beside the filesystem map as an
  `Option WAL` (the JSON encoding layer is out of scope per the spec);
* `File::read` outcomes are modelled as a list of `ReadResult`s; for regular
  files read through the 10000-byte buffer (which exceeds `BufReader`'s
  8192-byte capacity, so every read bypasses the internal buffer) the OS
  returns `min(10000, remaining)` bytes, modelled by `chunksOf`.
-/

set_option maxHeartbeats 1000000
set_option maxRecDepth 100000

namespace Mirage

/-- A filesystem path: its list of components (`PathBuf` in the source),
relative to the canonicalized target directory. -/
abbrev Path := List String

/-- One byte of file content (`u8` in the source; only equality matters). -/
abbrev Byte := Nat

/-- One filesystem entry: a regular file with its content, a symbolic link
with its referent path, or a directory. -/
inductive Entry : Type
  | file (content : List Byte)
  | symlink (target : Path)
  | dir
deriving DecidableEq

/-- Association-list finite map with first-binding-wins lookup.  Used both for
the filesystem (path to entry) and for the journal's `redirections`
(`HashMap<PathBuf, PathBuf>` in the source). -/
def mapLookup {α : Type} : List (Path × α) → Path → Option α
  | [], _ => none
  | (q, v) :: m, p => if q = p then some v else mapLookup m p

/-- Remove every binding of key `p` (models `fs::remove_file` on the
filesystem map and would model `HashMap::remove`, which the source never
calls on redirections). -/
def mapErase {α : Type} (m : List (Path × α)) (p : Path) : List (Path × α) :=
  m.filter (fun pv => !(pv.1 = p : Bool))

/-- Insert-or-overwrite a binding (models `HashMap::insert` and writing a
filesystem entry at a path). -/
def mapInsert {α : Type} (m : List (Path × α)) (p : Path) (v : α) : List (Path × α) :=
  (p, v) :: mapErase m p

/-- The filesystem: a finite map from paths to entries. -/
abbrev FS := List (Path × Entry)

/-- The error union of the source, `enum MirageError` (payloads dropped:
only the variant tag is observable to the claims). -/
inductive MErr : Type
  | errorDuringIo
  | dotMirageError
  | dotMirageInInconsistentState
  | walError
  | jsonError
  | walkDirError
deriving DecidableEq

/-- Outcome of one `Read::read` call on an open file: a chunk of bytes
(length 0 signals end of input) or an I/O error. -/
inductive ReadResult : Type
  | chunk (data : List Byte)
  | ioError
deriving DecidableEq

/-- The comparison buffer size of the source: `let mut buf1 = [0; 10000];`. -/
def bufSize : Nat := 10000

/-- `reader.read(&mut buf)` writing `c` into the front of `buf`: the first
`c.length` bytes are replaced, the rest of the buffer keeps its old (stale)
contents. -/
def writeBuf (buf c : List Byte) : List Byte :=
  c ++ buf.drop c.length

/-- The comparison loop of `full_match` (src/lib.rs lines 407-425), translated
control-flow-faithfully:
* reading `reader1` at end of input, or a `reader1` read ERROR, breaks the
  loop, which then returns `true` (the error is swallowed);
* a zero-byte `reader1` read breaks the loop (returns `true`);
* after a nonzero `reader1` read, a `reader2` read error falls through the
  inner `if let` (which has no `else`) and re-enters the loop, so both
  readers advance and the error is swallowed;
* otherwise the byte counts and the FULL buffers (stale bytes included) must
  agree, else the loop returns `false`. -/
def fullMatchLoop : List ReadResult → List ReadResult → List Byte → List Byte → Bool
  | [], _, _, _ => true
  | .ioError :: _, _, _, _ => true
  | .chunk c :: r1, r2, buf1, buf2 =>
    if c.length = 0 then true
    else
      match r2 with
      | [] => false
      | .ioError :: r2t => fullMatchLoop r1 r2t (writeBuf buf1 c) buf2
      | .chunk d :: r2t =>
        let b1 := writeBuf buf1 c
        let b2 := writeBuf buf2 d
        if c.length = d.length ∧ b1 = b2 then fullMatchLoop r1 r2t b1 b2
        else false

/-- `full_match` (src/lib.rs lines 400-428): `File::open` failures propagate
through `?`; otherwise the loop runs on zero-initialized buffers.  The two
arguments are the open results of `here` and `there`. -/
def full_match (here there : Except MErr (List ReadResult)) : Except MErr Bool :=
  match here with
  | .error e => .error e
  | .ok r1 =>
    match there with
    | .error e => .error e
    | .ok r2 =>
      .ok (fullMatchLoop r1 r2 (List.replicate bufSize 0) (List.replicate bufSize 0))

/-- Fuel-driven worker for `chunksOf` (structural recursion so that concrete
evaluations reduce; the fuel only needs to be at least the content length). -/
def chunksOfFuel : Nat → List Byte → List ReadResult
  | 0, _ => []
  | fuel + 1, c =>
    if c = [] then []
    else ReadResult.chunk (c.take bufSize) :: chunksOfFuel fuel (c.drop bufSize)

/-- The deterministic read sequence a regular file with content `c` produces
through the 10000-byte buffer: each read returns `min(bufSize, remaining)`
bytes until the content is exhausted. -/
def chunksOf (c : List Byte) : List ReadResult := chunksOfFuel c.length c

/-- `check_if_files_are_same` (src/lib.rs lines 389-398) on two regular files
with contents `hc` and `tc`: the metadata length comparison short-circuits,
then `full_match` streams both files. -/
def check_if_files_are_same (hc tc : List Byte) : Except MErr Bool :=
  if hc.length ≠ tc.length then .ok false
  else full_match (.ok (chunksOf hc)) (.ok (chunksOf tc))

/-- The action kinds, `enum ActionType`. -/
inductive ActionType : Type
  | Copy
  | Symlink
  | NOP
deriving DecidableEq

/-- A planned filesystem mutation, `struct Action`. -/
structure Action : Type where
  action : ActionType
  source : Path
  target : Path
deriving DecidableEq

/-- `Action::invert` (src/lib.rs lines 37-55): pure, no I/O. -/
def Action.invert (a : Action) : Action :=
  match a.action with
  | ActionType.Copy => ⟨ActionType.NOP, a.target, a.source⟩
  | ActionType.Symlink => ⟨ActionType.Copy, a.target, a.source⟩
  | ActionType.NOP => ⟨ActionType.NOP, a.source, a.target⟩

/-- The journal, `struct WAL`: planned actions, the redirection map, and the
checkpoint separating applied from not-yet-applied actions. -/
structure WAL : Type where
  actions : List Action
  redirections : List (Path × Path)
  checkpoint : Nat
deriving DecidableEq

/-- The empty journal, `WAL::default()`. -/
def WAL.empty : WAL := ⟨[], [], 0⟩

/-- The sequence of actions `revert` replays (src/lib.rs lines 349-356):
`actions.iter().rev().skip(len - checkpoint).map(invert)`.  (For
`checkpoint ≤ len` this is the applied prefix, reversed and inverted;
`len - checkpoint` is the truncated `usize` subtraction.) -/
def revertReplay (w : WAL) : List Action :=
  (w.actions.reverse.drop (w.actions.length - w.checkpoint)).map Action.invert

/-- `is_mirage` (src/lib.rs lines 166-172): an entry name reserved for the
side-store.  `starts_with` is modelled on the character list (identical to
the byte-level test on valid UTF-8 names). -/
def isMirageName (s : String) : Bool := ".mirage".data.isPrefixOf s.data

/-- A path pruned by `filter_entry(|f| !is_mirage(f))`: `WalkDir`'s
`filter_entry` prunes a matching directory together with its whole subtree,
so a path is visited iff none of its components matches. -/
def isMiragePath (p : Path) : Bool := p.any isMirageName

/-- Whether an entry is a regular file (the scan skips symlinks via
`path_is_symlink` and directories via `file_type().is_dir()`). -/
def isEntryFile : Entry → Bool
  | Entry.file _ => true
  | _ => false

/-- Whether an entry is a symlink. -/
def isEntrySymlink : Entry → Bool
  | Entry.symlink _ => true
  | _ => false

/-- Strict character-value order on component names (`OsStr` comparison is
byte order; on the ASCII names involved this coincides with character-value
order). -/
def charListLtB : List Char → List Char → Bool
  | [], [] => false
  | [], _ :: _ => true
  | _ :: _, [] => false
  | a :: s, b :: t => if a.toNat = b.toNat then charListLtB s t else decide (a.toNat < b.toNat)

/-- Strict order on component names. -/
def strLtB (a b : String) : Bool := charListLtB a.data b.data

/-- Lexicographic order on paths as component lists.  `WalkDir::sort_by_file_name`
sorts each directory's children by name, so the depth-first traversal emits
paths exactly in this order. -/
def pathLeB : Path → Path → Bool
  | [], _ => true
  | _ :: _, [] => false
  | a :: p, b :: q => if a = b then pathLeB p q else strLtB a b

/-- Insert into a `pathLeB`-sorted list (stable). -/
def insertSorted (x : Path) : List Path → List Path
  | [] => [x]
  | y :: l => if pathLeB x y then x :: y :: l else y :: insertSorted x l

/-- Stable sort by `pathLeB`: produces the same order as the
`sort_by_file_name` depth-first traversal. -/
def sortPaths : List Path → List Path
  | [] => []
  | x :: l => insertSorted x (sortPaths l)

/-- The candidate files of one planning pass: regular, not under the
side-store, in traversal order. -/
def scanFiles (fs : FS) : List Path :=
  sortPaths ((fs.filter (fun pe => isEntryFile pe.2 && !isMiragePath pe.1)).map Prod.fst)

/-- Content of the regular file at `p` (the comparator is only ever applied
to scanned regular files; other cases default to `[]`). -/
def contentAt (fs : FS) (p : Path) : List Byte :=
  match mapLookup fs p with
  | some (Entry.file c) => c
  | _ => []

/-- The comparator verdict the planner acts on.  With deterministic reads the
error branch of `check_if_files_are_same` is unreachable, so the planner's
`?` propagation is vacuous and the verdict is a plain boolean. -/
def checkSame (fs : FS) (here there : Path) : Bool :=
  match check_if_files_are_same (contentAt fs here) (contentAt fs there) with
  | .ok b => b
  | .error _ => false

/-- `here.file_name().unwrap()`: the final component of a canonicalized file
path (never empty for a scanned file). -/
def basename (p : Path) : String := (p.getLast?).getD ""

/-- The side-store root `.mirage`, relative to the target directory. -/
def mirageDir : Path := [".mirage"]

/-- The canonical-copy directory `.mirage/originals`. -/
def originalsDir : Path := [".mirage", "originals"]

/-- The canonical path chosen for a newly discovered equivalence class:
`.mirage/originals/<basename of here>` (src/lib.rs lines 270-273). -/
def canonicalPathOf (here : Path) : Path := originalsDir ++ [basename here]

/-- One iteration of the planner's pair loop (src/lib.rs lines 218-310):
skip identical paths, compare contents, then resolve redirection state. -/
def planStep (fs : FS) (w : WAL) (here there : Path) : WAL :=
  if here = there then w
  else if checkSame fs here there then
    match mapLookup w.redirections here, mapLookup w.redirections there with
    | some _, some _ => w
    | some herePt, none =>
      ⟨w.actions ++ [⟨ActionType.Symlink, there, herePt⟩],
       mapInsert w.redirections there herePt, w.checkpoint⟩
    | none, some therePt =>
      ⟨w.actions ++ [⟨ActionType.Symlink, here, therePt⟩],
       mapInsert w.redirections here therePt, w.checkpoint⟩
    | none, none =>
      ⟨w.actions ++ [⟨ActionType.Copy, here, canonicalPathOf here⟩,
                     ⟨ActionType.Symlink, here, canonicalPathOf here⟩,
                     ⟨ActionType.Symlink, there, canonicalPathOf here⟩],
       mapInsert (mapInsert w.redirections here (canonicalPathOf here))
         there (canonicalPathOf here),
       w.checkpoint⟩
  else w

/-- The planner: the all-pairs double scan of src/lib.rs lines 174-312.  Both
walks see the same (unmodified) tree, since execution only starts after
planning finishes and planning only rewrites `.mirage/wal.json`. -/
def planPass (fs : FS) (w : WAL) : WAL :=
  let files := scanFiles fs
  files.foldl (fun w1 here => files.foldl (fun w2 there => planStep fs w2 here there) w1) w

/-- Follow the symlink chain starting at `p` down to a non-symlink path.
The fuel models the OS bound on chain length (`ELOOP`); `none` is the
resolution error. -/
def resolveLink (fs : FS) : Nat → Path → Option Path
  | 0, _ => none
  | fuel + 1, p =>
    match mapLookup fs p with
    | some (Entry.symlink t) => resolveLink fs fuel t
    | _ => some p

/-- The OS symlink-chain bound (Linux `SYMLOOP_MAX`-style). -/
def linkFuel : Nat := 40

/-- Content read through path `p`, following symlinks (what `fs::copy` reads
from its source). -/
def resolveFileContent (fs : FS) (p : Path) : Option (List Byte) :=
  match resolveLink fs linkFuel p with
  | none => none
  | some q =>
    match mapLookup fs q with
    | some (Entry.file c) => some c
    | _ => none

/-- `Path::exists`: follows symlinks; a dangling symlink does not exist. -/
def pathExists (fs : FS) (p : Path) : Bool :=
  match resolveLink fs linkFuel p with
  | none => false
  | some q => (mapLookup fs q).isSome

/-- One action of the forward executor (src/lib.rs lines 314-338):
* `Copy`: `fs::copy(source, target)` reads through symlinks at `source`,
  writes through symlinks at `target`, fails on a missing or directory
  source or a directory target, and overwrites an existing target file;
* `Symlink`: if `source` exists (following links) it is removed first
  (`fs::remove_file`, which fails on a directory); then a symlink to
  `target` is created at `source` (which fails if an entry — e.g. a
  dangling symlink not removed by the `exists` test — is still present);
* `NOP`: no effect. -/
def execApplyAction (fs : FS) (a : Action) : Except MErr FS :=
  match a.action with
  | ActionType.Copy =>
    match resolveFileContent fs a.source with
    | none => .error .errorDuringIo
    | some c =>
      match resolveLink fs linkFuel a.target with
      | none => .error .errorDuringIo
      | some q =>
        match mapLookup fs q with
        | some Entry.dir => .error .errorDuringIo
        | _ => .ok (mapInsert fs q (Entry.file c))
  | ActionType.Symlink =>
    match
      (if pathExists fs a.source then
        match mapLookup fs a.source with
        | some Entry.dir => Except.error MErr.errorDuringIo
        | _ => Except.ok (mapErase fs a.source)
      else Except.ok fs : Except MErr FS) with
    | .error e => .error e
    | .ok fs1 =>
      if (mapLookup fs1 a.source).isSome then .error .errorDuringIo
      else .ok (mapInsert fs1 a.source (Entry.symlink a.target))
  | ActionType.NOP => .ok fs

/-- Outcome of the executor loop: final filesystem, the checkpoint values
committed to disk (one after each successful action, in order), the actions
actually applied, and whether an I/O failure aborted the loop. -/
structure ExecOutcome : Type where
  fs : FS
  commits : List Nat
  applied : List Action
  err : Option MErr
deriving DecidableEq

/-- The executor loop body over the remaining actions, starting at checkpoint
`cp`: each action is attempted in order; a success increments the checkpoint
and commits the journal before the next action; a failure aborts immediately
(`?` on the filesystem call). -/
def execActions (fs : FS) (cp : Nat) : List Action → ExecOutcome
  | [] => ⟨fs, [], [], none⟩
  | a :: rest =>
    match execApplyAction fs a with
    | .error e => ⟨fs, [], [], some e⟩
    | .ok fs1 =>
      let r := execActions fs1 (cp + 1) rest
      ⟨r.fs, (cp + 1) :: r.commits, a :: r.applied, r.err⟩

/-- The executor of `apply` (src/lib.rs lines 314-341): iterates
`actions.iter().skip(checkpoint)`. -/
def runExecutor (w : WAL) (fs : FS) : ExecOutcome :=
  execActions fs w.checkpoint (w.actions.drop w.checkpoint)

/-- The durable state of one target directory: the filesystem tree (relative
to the target directory) and the decoded content of `.mirage/wal.json`
(`none` when the side-store has no journal). -/
structure Sys : Type where
  fs : FS
  journal : Option WAL
deriving DecidableEq

/-- `create_dir` guarded by `exists()` as in `MirageState::get`. -/
def ensureDir (fs : FS) (p : Path) : FS :=
  if (mapLookup fs p).isSome then fs else mapInsert fs p Entry.dir

/-- Whether the entry at `p` is a directory after following symlinks
(`Path::is_dir`). -/
def isDirAt (fs : FS) (p : Path) : Bool :=
  match resolveLink fs linkFuel p with
  | none => false
  | some q =>
    match mapLookup fs q with
    | some Entry.dir => true
    | _ => false

/-- `MirageState::get` (src/lib.rs lines 72-134): ensure `.mirage` and
`.mirage/originals` exist as directories (failing with the layout errors if
a non-directory occupies either path), then load the journal, creating and
persisting an empty one if `wal.json` is absent.  (The JSON decode failure
`CorruptJournal` cannot be represented: the model stores the journal
already decoded.) -/
def mirageGet (s : Sys) : Except MErr (FS × WAL) :=
  if (mapLookup s.fs mirageDir).isSome && !isDirAt s.fs mirageDir then
    .error .dotMirageError
  else
    let fs1 := ensureDir s.fs mirageDir
    if (mapLookup fs1 originalsDir).isSome && !isDirAt fs1 originalsDir then
      .error .dotMirageError
    else
      let fs2 := ensureDir fs1 originalsDir
      match s.journal with
      | some w => .ok (fs2, w)
      | none => .ok (fs2, WAL.empty)

/-- `apply` (src/lib.rs lines 163-344): load state, plan (committing after
every journal mutation), execute from the checkpoint (committing after every
action).  Returns the resulting durable state together with the error, if
any, that aborted execution. -/
def apply (s : Sys) : Sys × Option MErr :=
  match mirageGet s with
  | .error e => (s, some e)
  | .ok (fs0, w0) =>
    let w1 := planPass fs0 w0
    let r := runExecutor w1 fs0
    (⟨r.fs, some ⟨w1.actions, w1.redirections, w1.checkpoint + r.applied.length⟩⟩, r.err)

/-- One action of the reverter's replay loop (src/lib.rs lines 357-376):
* `Copy` (an inverted `Symlink`): if `target` exists it is removed first
  (`fs::remove_file`, failing on a directory), then
  `fs::copy(source, target)`;
* `Symlink` (dead code: `invert` never produces a `Symlink`): the source
  calls `symlink_file(source, target)`, creating a link at `target`
  pointing to `source` — the arguments are used in the opposite convention
  from the apply executor;
* `NOP` (an inverted `Copy`): no effect. -/
def execRevertAction (fs : FS) (a : Action) : Except MErr FS :=
  match a.action with
  | ActionType.Copy =>
    match
      (if pathExists fs a.target then
        match mapLookup fs a.target with
        | some Entry.dir => Except.error MErr.errorDuringIo
        | _ => Except.ok (mapErase fs a.target)
      else Except.ok fs : Except MErr FS) with
    | .error e => .error e
    | .ok fs1 =>
      match resolveFileContent fs1 a.source with
      | none => .error .errorDuringIo
      | some c =>
        match resolveLink fs1 linkFuel a.target with
        | none => .error .errorDuringIo
        | some q =>
          match mapLookup fs1 q with
          | some Entry.dir => .error .errorDuringIo
          | _ => .ok (mapInsert fs1 q (Entry.file c))
  | ActionType.Symlink =>
    if (mapLookup fs a.target).isSome then .error .errorDuringIo
    else .ok (mapInsert fs a.target (Entry.symlink a.source))
  | ActionType.NOP => .ok fs

/-- The reverter's replay loop: actions run in order, the first failure
aborts (`?`).  The journal is never re-committed during revert. -/
def runRevertActions (fs : FS) : List Action → FS × Option MErr
  | [] => (fs, none)
  | a :: rest =>
    match execRevertAction fs a with
    | .error e => (fs, some e)
    | .ok fs1 => runRevertActions fs1 rest

/-- A path inside the side-store root (removed by
`fs::remove_dir_all(mirage_path)`). -/
def isMirageTop (p : Path) : Bool :=
  match p with
  | [] => false
  | s :: _ => s = ".mirage"

/-- `fs::remove_dir_all(.mirage)`: every entry under the side-store root is
removed (canonical copies, the journal file, the directory itself). -/
def removeSideStore (fs : FS) : FS :=
  fs.filter (fun pe => !isMirageTop pe.1)

/-- `revert` (src/lib.rs lines 346-387): load state, replay the inverted
applied prefix in reverse order, then delete the side-store. -/
def revert (s : Sys) : Sys × Option MErr :=
  match mirageGet s with
  | .error e => (s, some e)
  | .ok (fs0, w) =>
    match runRevertActions fs0 (revertReplay w) with
    | (fs1, some e) => (⟨fs1, some w⟩, some e)
    | (fs1, none) => (⟨removeSideStore fs1, none⟩, none)

/-! ### Specification-level notions used to state the theorems -/

/-- Two scanned files have byte-identical content. -/
def sameContent (fs : FS) (p q : Path) : Bool := contentAt fs p == contentAt fs q

/-- The first file of `files` with the same content as `p` (the member of
`p`'s content-equivalence class that the planner meets first). -/
def leaderOf (fs : FS) (files : List Path) (p : Path) : Path :=
  (files.find? (fun q => sameContent fs q p)).getD p

/-- `p` has at least one other content-equal file among the candidates. -/
def isDupFile (fs : FS) (files : List Path) (p : Path) : Bool :=
  files.any (fun q => !(q == p) && sameContent fs q p)

/-- The members of `p`'s content-equivalence class, in traversal order. -/
def membersOf (fs : FS) (files : List Path) (h : Path) : List Path :=
  files.filter (fun q => sameContent fs q h)

/-- `h` is the first-planned member of an equivalence class of size at least
two. -/
def isLeader (fs : FS) (files : List Path) (h : Path) : Bool :=
  isDupFile fs files h && (leaderOf fs files h == h)

/-- The actions the planner appends while the outer scan sits on the leader
`h` of a newly discovered class: one `Copy` and one `Symlink` for `h`, then
one `Symlink` per remaining member in traversal order. -/
def blockOf (fs : FS) (files : List Path) (h : Path) : List Action :=
  ⟨ActionType.Copy, h, canonicalPathOf h⟩ ::
  ⟨ActionType.Symlink, h, canonicalPathOf h⟩ ::
  (membersOf fs files h).tail.map (fun m => ⟨ActionType.Symlink, m, canonicalPathOf h⟩)

/-- Partial block: the actions appended after the members `h :: ms` have been
met (`ms` in discovery order). -/
def partialBlock (h : Path) (ms : List Path) : List Action :=
  ⟨ActionType.Copy, h, canonicalPathOf h⟩ ::
  ⟨ActionType.Symlink, h, canonicalPathOf h⟩ ::
  ms.map (fun m => ⟨ActionType.Symlink, m, canonicalPathOf h⟩)

/-- The redirection map built so far, extensionally: once the outer scan has
passed the leaders in `pre`, exactly the members of their classes are
redirected, each to its class's canonical path. -/
def planRedInv (fs : FS) (files pre : List Path) (R : List (Path × Path)) : Prop :=
  ∀ p : Path,
    mapLookup R p =
      if p ∈ files ∧ isDupFile fs files p = true ∧ leaderOf fs files p ∈ pre
      then some (canonicalPathOf (leaderOf fs files p))
      else none

/-- Planner invariant (for a run from the fresh journal) after the outer scan
has processed the prefix `pre` of the candidate list. -/
def PlanInv (fs : FS) (files pre : List Path) (w : WAL) : Prop :=
  planRedInv fs files pre w.redirections ∧
  w.actions = (pre.filter (isLeader fs files)).flatMap (blockOf fs files) ∧
  w.checkpoint = 0

/-- State of the inner scan while the outer scan sits on an unopened leader
`h`: `ms` lists the other members discovered so far (in order); before the
first one the journal is untouched. -/
def InnerState (fs : FS) (h : Path) (w0 : WAL) (ms : List Path) (w : WAL) : Prop :=
  if ms = [] then w = w0
  else
    (∀ p : Path, mapLookup w.redirections p =
      if p = h ∨ p ∈ ms then some (canonicalPathOf h) else mapLookup w0.redirections p) ∧
    w.actions = w0.actions ++ partialBlock h ms ∧
    w.checkpoint = w0.checkpoint

/-- The keys of an association-list map. -/
def keysOf {α : Type} (m : List (Path × α)) : List Path := m.map Prod.fst

/-- A well-formed map binds each key at most once. -/
def WFmap {α : Type} (m : List (Path × α)) : Prop := (keysOf m).Nodup

/-- An input tree is a faithful model of a user directory tree when its keys
are unique, no entry lies under a `.mirage`-prefixed name, and it contains
no symlinks (the tool deduplicates trees of regular files; the scan skips
symlinks). -/
def GoodTree (fs : FS) : Prop :=
  WFmap fs ∧
  (∀ pe ∈ fs, isMiragePath pe.1 = false) ∧
  (∀ pe ∈ fs, isEntrySymlink pe.2 = false)

/-- The basename-uniqueness condition of spec §4.4: first-planned members of
distinct content-equivalence classes (of size at least two) have distinct
base filenames, so canonical paths never collide. -/
def DistinctCanonicalBasenames (fs : FS) : Prop :=
  ∀ p ∈ scanFiles fs, ∀ q ∈ scanFiles fs,
    isDupFile fs (scanFiles fs) p = true →
    isDupFile fs (scanFiles fs) q = true →
    sameContent fs p q = false →
    basename (leaderOf fs (scanFiles fs) p) ≠ basename (leaderOf fs (scanFiles fs) q)

/-! ### Concrete inputs used by witnesses and counterexamples -/

/-- Scenario A of spec §8: two duplicates and one unique file. -/
def scenarioATree : FS :=
  [(["file1.txt"], Entry.file [100, 117, 112]),
   (["file2.txt"], Entry.file [100, 117, 112]),
   (["file3.txt"], Entry.file [117, 110, 113])]

/-- A tree whose two distinct equivalence classes have colliding first-member
basenames (`a/x` equals `b/x`, `c/x` equals `d/x`, both named `x`): the
counterexample input for the round-trip claim. -/
def collisionTree : FS :=
  [(["a", "x"], Entry.file [65]), (["b", "x"], Entry.file [65]),
   (["c", "x"], Entry.file [66]), (["d", "x"], Entry.file [66])]

/-- The same collision shape with different contents, used to exhibit the
canonical-copy overwrite inside `apply` itself. -/
def collisionTree2 : FS :=
  [(["p", "y"], Entry.file [1, 2]), (["q", "y"], Entry.file [1, 2]),
   (["r", "y"], Entry.file [3, 4]), (["s", "y"], Entry.file [3, 4])]

/-- A two-action journal with checkpoint 1, witness input for the
revert-replay claim. -/
def walC5 : WAL :=
  ⟨[⟨ActionType.Copy, ["a"], ["b"]⟩, ⟨ActionType.Symlink, ["c"], ["d"]⟩], [], 1⟩

/-- A journal and filesystem on which the executor runs to completion,
witness input for the executor claims. -/
def walC6 : WAL :=
  ⟨[⟨ActionType.Copy, ["u"], [".mirage", "originals", "u"]⟩,
    ⟨ActionType.Symlink, ["u"], [".mirage", "originals", "u"]⟩], [], 0⟩

/-- The filesystem for `walC6`. -/
def fsC6 : FS := [(["u"], Entry.file [9]), (mirageDir, Entry.dir), (originalsDir, Entry.dir)]

/-- The filesystem right after `MirageState::get` created the side-store
directories on a fresh tree. -/
def withDirs (F0 : FS) : FS := (originalsDir, Entry.dir) :: (mirageDir, Entry.dir) :: F0

/-- The leaders the planner discovers, in traversal order. -/
def leadersOf (fs : FS) (files : List Path) : List Path := files.filter (isLeader fs files)

/-! ## Association-list map lemmas -/

theorem mapLookup_nil {α : Type} (p : Path) : mapLookup ([] : List (Path × α)) p = none := rfl

theorem mapLookup_cons {α : Type} (q : Path) (w : α) (m : List (Path × α)) (p : Path) :
    mapLookup ((q, w) :: m) p = if q = p then some w else mapLookup m p := rfl

theorem mapErase_nil {α : Type} (p : Path) : mapErase ([] : List (Path × α)) p = [] := rfl

theorem mapErase_cons {α : Type} (q : Path) (w : α) (m : List (Path × α)) (p : Path) :
    mapErase ((q, w) :: m) p = if q = p then mapErase m p else (q, w) :: mapErase m p := by
  by_cases h : q = p <;> simp [mapErase, List.filter_cons, h]

theorem mem_of_mapLookup_some {α : Type} {m : List (Path × α)} {p : Path} {v : α}
    (h : mapLookup m p = some v) : (p, v) ∈ m := by
  induction m with
  | nil => exact absurd h (by simp [mapLookup_nil])
  | cons pv m ih =>
    rcases pv with ⟨q, w⟩
    rw [mapLookup_cons] at h
    by_cases hq : q = p
    · rw [if_pos hq] at h
      injection h with h
      rw [← hq, ← h]
      exact List.mem_cons_self _ _
    · rw [if_neg hq] at h
      exact List.mem_cons_of_mem _ (ih h)

theorem mapLookup_eq_none_iff {α : Type} (m : List (Path × α)) (p : Path) :
    mapLookup m p = none ↔ p ∉ keysOf m := by
  induction m with
  | nil => simp [mapLookup_nil, keysOf]
  | cons pv m ih =>
    rcases pv with ⟨q, w⟩
    rw [mapLookup_cons]
    have hkeys : keysOf ((q, w) :: m) = q :: keysOf m := rfl
    rw [hkeys]
    by_cases hq : q = p
    · rw [if_pos hq, hq]
      simp
    · rw [if_neg hq]
      rw [ih]
      simp only [List.mem_cons]
      constructor
      · intro hnp hor
        rcases hor with h1 | h2
        · exact hq h1.symm
        · exact hnp h2
      · intro hnp h2
        exact hnp (Or.inr h2)

theorem mapLookup_mapErase {α : Type} (m : List (Path × α)) (p q : Path) :
    mapLookup (mapErase m p) q = if q = p then none else mapLookup m q := by
  induction m with
  | nil =>
    rw [mapErase_nil, mapLookup_nil]
    split <;> rfl
  | cons pv m ih =>
    rcases pv with ⟨r, v⟩
    rw [mapErase_cons, mapLookup_cons]
    by_cases hr : r = p
    · rw [if_pos hr, ih]
      by_cases hq : q = p
      · rw [if_pos hq, if_pos hq]
      · rw [if_neg hq, if_neg hq, if_neg (fun h : r = q => hq (h ▸ hr.symm ▸ rfl))]
    · rw [if_neg hr, mapLookup_cons]
      by_cases hrq : r = q
      · have hq : ¬(q = p) := fun h => hr (hrq.trans h)
        rw [if_pos hrq, if_neg hq, if_pos hrq]
      · rw [if_neg hrq, if_neg hrq, ih]

theorem mapLookup_mapInsert {α : Type} (m : List (Path × α)) (p q : Path) (v : α) :
    mapLookup (mapInsert m p v) q = if q = p then some v else mapLookup m q := by
  unfold mapInsert
  rw [mapLookup_cons]
  by_cases hq : q = p
  · rw [if_pos (hq ▸ rfl : p = q), if_pos hq]
  · rw [if_neg (fun h : p = q => hq h.symm), if_neg hq, mapLookup_mapErase, if_neg hq]

theorem mapErase_eq_self {α : Type} {m : List (Path × α)} {p : Path}
    (h : mapLookup m p = none) : mapErase m p = m := by
  induction m with
  | nil => rfl
  | cons pv m ih =>
    rcases pv with ⟨q, w⟩
    rw [mapLookup_cons] at h
    by_cases hq : q = p
    · rw [if_pos hq] at h
      exact absurd h (by simp)
    · rw [if_neg hq] at h
      rw [mapErase_cons, if_neg hq, ih h]

theorem keysOf_mapErase_sublist {α : Type} (m : List (Path × α)) (p : Path) :
    (keysOf (mapErase m p)).Sublist (keysOf m) :=
  List.Sublist.map Prod.fst (List.filter_sublist m)

theorem WFmap_mapErase {α : Type} {m : List (Path × α)} (h : WFmap m) (p : Path) :
    WFmap (mapErase m p) :=
  List.Nodup.sublist (keysOf_mapErase_sublist m p) h

theorem WFmap_mapInsert {α : Type} {m : List (Path × α)} (h : WFmap m) (p : Path) (v : α) :
    WFmap (mapInsert m p v) := by
  have hkeys : keysOf (mapInsert m p v) = p :: keysOf (mapErase m p) := rfl
  unfold WFmap
  rw [hkeys]
  refine List.Nodup.cons ?_ (WFmap_mapErase h p)
  intro hmem
  have : mapLookup (mapErase m p) p = none := by
    rw [mapLookup_mapErase]
    simp
  exact ((mapLookup_eq_none_iff _ _).mp this) hmem

theorem mapLookup_filter {α : Type} {m : List (Path × α)} (hw : WFmap m)
    (f : Path × α → Bool) (p : Path) :
    mapLookup (m.filter f) p =
      match mapLookup m p with
      | some v => if f (p, v) then some v else none
      | none => none := by
  induction m with
  | nil => simp [mapLookup_nil]
  | cons pv m ih =>
    rcases pv with ⟨q, w⟩
    have hw0 : (q :: keysOf m).Nodup := hw
    have hw' : WFmap m := (List.nodup_cons.mp hw0).2
    have hqk : q ∉ keysOf m := (List.nodup_cons.mp hw0).1
    rw [List.filter_cons, mapLookup_cons]
    by_cases hq : q = p
    · subst hq
      have hnone : mapLookup m q = none := (mapLookup_eq_none_iff _ _).mpr hqk
      by_cases hf : f (q, w) = true
      · rw [if_pos hf, mapLookup_cons]
        simp [hf]
      · rw [if_neg hf, ih hw', hnone]
        simp [hf]
    · by_cases hf : f (q, w) = true
      · rw [if_pos hf, mapLookup_cons, if_neg hq, if_neg hq]
        exact ih hw'
      · rw [if_neg hf, if_neg hq]
        exact ih hw'

/-! ## Comparator lemmas -/

theorem chunksOfFuel_eq (n : Nat) : ∀ (m : Nat) (c : List Byte),
    c.length ≤ n → c.length ≤ m → chunksOfFuel n c = chunksOfFuel m c := by
  induction n with
  | zero =>
    intro m c hn _
    have hc : c = [] := List.eq_nil_of_length_eq_zero (Nat.le_zero.mp hn)
    subst hc
    cases m <;> simp [chunksOfFuel]
  | succ n ih =>
    intro m c hn hm
    cases m with
    | zero =>
      have hc : c = [] := List.eq_nil_of_length_eq_zero (Nat.le_zero.mp hm)
      subst hc
      simp [chunksOfFuel]
    | succ m =>
      by_cases hc : c = []
      · subst hc; simp [chunksOfFuel]
      · simp only [chunksOfFuel, if_neg hc]
        have hpos : 0 < c.length := List.length_pos.mpr hc
        have hdrop : (c.drop bufSize).length ≤ n := by
          simp only [List.length_drop]
          have : 0 < bufSize := by decide
          omega
        have hdrop2 : (c.drop bufSize).length ≤ m := by
          simp only [List.length_drop]
          have : 0 < bufSize := by decide
          omega
        rw [ih _ _ hdrop hdrop2]

theorem chunksOf_cons (c : List Byte) (h : c ≠ []) :
    chunksOf c = ReadResult.chunk (c.take bufSize) :: chunksOf (c.drop bufSize) := by
  unfold chunksOf
  cases hl : c.length with
  | zero => exact absurd (List.eq_nil_of_length_eq_zero hl) h
  | succ n =>
    simp only [chunksOfFuel, if_neg h]
    have hdrop : (c.drop bufSize).length ≤ n := by
      simp only [List.length_drop]
      have : 0 < bufSize := by decide
      omega
    rw [chunksOfFuel_eq n (c.drop bufSize).length (c.drop bufSize) hdrop (Nat.le_refl _)]

theorem writeBuf_eq_iff (buf c d : List Byte) (hlen : c.length = d.length) :
    writeBuf buf c = writeBuf buf d ↔ c = d := by
  unfold writeBuf
  rw [hlen]
  constructor
  · exact fun h => List.append_cancel_right h
  · intro h; rw [h]

theorem fullMatchLoop_chunksOf (n : Nat) : ∀ (c1 c2 b : List Byte),
    c1.length ≤ n → c1.length = c2.length →
    fullMatchLoop (chunksOf c1) (chunksOf c2) b b = (c1 == c2) := by
  induction n with
  | zero =>
    intro c1 c2 b h1 hlen
    have hc1 : c1 = [] := List.eq_nil_of_length_eq_zero (Nat.le_zero.mp h1)
    subst hc1
    have hc2 : c2 = [] := List.eq_nil_of_length_eq_zero hlen.symm
    subst hc2
    rfl
  | succ n ih =>
    intro c1 c2 b h1 hlen
    by_cases hc1 : c1 = []
    · subst hc1
      have hc2 : c2 = [] := List.eq_nil_of_length_eq_zero hlen.symm
      subst hc2
      rfl
    · have hc2 : c2 ≠ [] := by
        intro hh
        subst hh
        exact hc1 (List.eq_nil_of_length_eq_zero hlen)
      rw [chunksOf_cons c1 hc1, chunksOf_cons c2 hc2]
      have htlen : (c1.take bufSize).length = (c2.take bufSize).length := by
        simp [List.length_take, hlen]
      have htpos : (c1.take bufSize).length ≠ 0 := by
        simp only [List.length_take]
        have : 0 < c1.length := List.length_pos.mpr hc1
        have : 0 < bufSize := by decide
        omega
      simp only [fullMatchLoop, if_neg htpos]
      by_cases htake : c1.take bufSize = c2.take bufSize
      · have hb : writeBuf b (c1.take bufSize) = writeBuf b (c2.take bufSize) := by rw [htake]
        rw [if_pos ⟨htlen, hb⟩, htake]
        have hdlen : (c1.drop bufSize).length ≤ n := by
          simp only [List.length_drop]
          have : 0 < c1.length := List.length_pos.mpr hc1
          have : 0 < bufSize := by decide
          omega
        have hdeq : (c1.drop bufSize).length = (c2.drop bufSize).length := by
          simp [List.length_drop, hlen]
        rw [ih (c1.drop bufSize) (c2.drop bufSize) (writeBuf b (c2.take bufSize)) hdlen hdeq]
        have hiff : c1.drop bufSize = c2.drop bufSize ↔ c1 = c2 := by
          constructor
          · intro hd
            have h1' := List.take_append_drop bufSize c1
            have h2' := List.take_append_drop bufSize c2
            rw [← h1', ← h2', htake, hd]
          · intro h; rw [h]
        by_cases hd : c1.drop bufSize = c2.drop bufSize
        · have hc12 : c1 = c2 := hiff.mp hd
          rw [hd, hc12]
          simp
        · have hne : c1 ≠ c2 := fun h => hd (hiff.mpr h)
          have e1 : (c1.drop bufSize == c2.drop bufSize) = false := beq_eq_false_iff_ne.mpr hd
          have e2 : (c1 == c2) = false := beq_eq_false_iff_ne.mpr hne
          rw [e1, e2]
      · have hb : ¬(writeBuf b (c1.take bufSize) = writeBuf b (c2.take bufSize)) :=
          fun h => htake ((writeBuf_eq_iff b _ _ htlen).mp h)
        rw [if_neg (fun hand => hb hand.2)]
        have hne : c1 ≠ c2 := by
          intro h
          exact htake (by rw [h])
        rw [beq_eq_false_iff_ne.mpr hne]

theorem check_same_eq (hc tc : List Byte) :
    check_if_files_are_same hc tc = Except.ok (hc == tc) := by
  unfold check_if_files_are_same
  by_cases hlen : hc.length = tc.length
  · rw [if_neg (by simp [hlen])]
    have hfm : full_match (.ok (chunksOf hc)) (.ok (chunksOf tc)) =
        .ok (fullMatchLoop (chunksOf hc) (chunksOf tc)
          (List.replicate bufSize 0) (List.replicate bufSize 0)) := rfl
    rw [hfm, fullMatchLoop_chunksOf hc.length hc tc (List.replicate bufSize 0) (Nat.le_refl _) hlen]
  · rw [if_pos hlen]
    have hne : hc ≠ tc := fun h => hlen (by rw [h])
    rw [beq_eq_false_iff_ne.mpr hne]

theorem checkSame_eq (fs : FS) (p q : Path) :
    checkSame fs p q = (contentAt fs p == contentAt fs q) := by
  unfold checkSame
  rw [check_same_eq]

/-! ## Claim theorems: comparator and inversion algebra -/

/-- Claim C2: `check_if_files_are_same` returns `Ok true` exactly when the two
files' byte sequences are identical, and files of different length are
reported unequal (the length test short-circuits). -/
theorem C2_comparator_correct (hc tc : List Byte) :
    (check_if_files_are_same hc tc = Except.ok true ↔ hc = tc) ∧
    (hc.length ≠ tc.length → check_if_files_are_same hc tc = Except.ok false) := by
  constructor
  · rw [check_same_eq]
    constructor
    · intro h
      have : (hc == tc) = true := by
        have := h
        injection this
      exact beq_iff_eq.mp this
    · intro h
      subst h
      rw [beq_self_eq_true]
  · intro hlen
    unfold check_if_files_are_same
    rw [if_pos hlen]

/-- Claim C2 witness: evaluated on two concrete equal files and two concrete
files of different lengths. -/
theorem C2_comparator_correct_witness :
    ([1, 2] : List Byte) = [1, 2] ∧ ([1] : List Byte).length ≠ ([] : List Byte).length ∧
    check_if_files_are_same [1, 2] [1, 2] = Except.ok true ∧
    check_if_files_are_same [1] [] = Except.ok false :=
  ⟨rfl, by decide, (C2_comparator_correct [1, 2] [1, 2]).1.mpr rfl,
    (C2_comparator_correct [1] []).2 (by decide)⟩

/-- Claim C3 (failing evaluation): an I/O error on the first read of the first
file is swallowed — `full_match` breaks out of its loop and reports
`Ok(true)` ("equal") instead of returning an `Io` error; by contrast an
error while opening does propagate. -/
theorem C3_read_error_swallowed :
    full_match (Except.ok [ReadResult.ioError]) (Except.ok (chunksOf [1])) = Except.ok true ∧
    full_match (Except.error MErr.errorDuringIo) (Except.ok (chunksOf [1])) =
      Except.error MErr.errorDuringIo :=
  ⟨rfl, rfl⟩

/-- Claim C4: the inversion equations of `Action::invert`, exactly as
specified: `invert(Copy{s,t}) = NoOp{t,s}`, `invert(Symlink{s,t}) = Copy{t,s}`,
`invert(NoOp{s,t}) = NoOp{s,t}`. -/
theorem C4_invert_equations (s t : Path) :
    Action.invert ⟨ActionType.Copy, s, t⟩ = ⟨ActionType.NOP, t, s⟩ ∧
    Action.invert ⟨ActionType.Symlink, s, t⟩ = ⟨ActionType.Copy, t, s⟩ ∧
    Action.invert ⟨ActionType.NOP, s, t⟩ = ⟨ActionType.NOP, s, t⟩ :=
  ⟨rfl, rfl, rfl⟩

/-- Claim C10: double inversion always lands on a `NOP` action (hence a third
inversion changes nothing), and inversion is not an involution. -/
theorem C10_double_invert_nop :
    (∀ a : Action, (a.invert.invert).action = ActionType.NOP ∧
      a.invert.invert.invert = a.invert.invert) ∧
    ¬(∀ a : Action, a.invert.invert = a) := by
  constructor
  · intro a
    rcases a with ⟨k, s, t⟩
    cases k <;> exact ⟨rfl, rfl⟩
  · intro hall
    have h := hall ⟨ActionType.Copy, [], []⟩
    simp [Action.invert] at h

/-- Claim C5: for a journal with `checkpoint ≤ len(actions)`, the replay
sequence of `revert` is exactly the applied prefix
`actions[0..checkpoint)`, reversed and inverted. -/
theorem C5_revert_replay (w : WAL) (h : w.checkpoint ≤ w.actions.length) :
    revertReplay w = ((w.actions.take w.checkpoint).reverse).map Action.invert := by
  unfold revertReplay
  rw [List.reverse_take]

/-- Claim C5 witness: evaluated on a two-action journal with checkpoint 1. -/
theorem C5_revert_replay_witness :
    walC5.checkpoint ≤ walC5.actions.length ∧
    revertReplay walC5 = ((walC5.actions.take walC5.checkpoint).reverse).map Action.invert :=
  ⟨by decide, C5_revert_replay walC5 (by decide)⟩

/-! ## Executor lemmas -/

theorem execActions_spec (l : List Action) : ∀ (fs : FS) (cp : Nat),
    (execActions fs cp l).applied = l.take (execActions fs cp l).applied.length ∧
    (execActions fs cp l).commits = List.range' (cp + 1) (execActions fs cp l).applied.length ∧
    ((execActions fs cp l).err = none → (execActions fs cp l).applied = l) ∧
    (execActions fs cp l).applied.length ≤ l.length := by
  induction l with
  | nil =>
    intro fs cp
    exact ⟨rfl, rfl, fun _ => rfl, Nat.le_refl _⟩
  | cons a rest ih =>
    intro fs cp
    cases hstep : execApplyAction fs a with
    | error e =>
      refine ⟨?_, ?_, ?_, ?_⟩ <;> simp [execActions, hstep]
    | ok fs1 =>
      have hr := ih fs1 (cp + 1)
      have hres : execActions fs cp (a :: rest) =
          ⟨(execActions fs1 (cp + 1) rest).fs,
           (cp + 1) :: (execActions fs1 (cp + 1) rest).commits,
           a :: (execActions fs1 (cp + 1) rest).applied,
           (execActions fs1 (cp + 1) rest).err⟩ := by
        simp [execActions, hstep]
      rw [hres]
      refine ⟨?_, ?_, ?_, ?_⟩
      · show a :: (execActions fs1 (cp + 1) rest).applied =
          (a :: rest).take ((execActions fs1 (cp + 1) rest).applied.length + 1)
        rw [List.take_succ_cons]
        rw [← hr.1]
      · show (cp + 1) :: (execActions fs1 (cp + 1) rest).commits =
          List.range' (cp + 1) ((execActions fs1 (cp + 1) rest).applied.length + 1)
        rw [List.range'_succ, ← hr.2.1]
      · intro herr
        show a :: (execActions fs1 (cp + 1) rest).applied = a :: rest
        rw [hr.2.2.1 herr]
      · show (execActions fs1 (cp + 1) rest).applied.length + 1 ≤ rest.length + 1
        exact Nat.succ_le_succ hr.2.2.2

theorem getLastD_range' (n : Nat) : ∀ (s d : Nat),
    (List.range' s n).getLastD d = if n = 0 then d else s + n - 1 := by
  induction n with
  | zero => intro s d; rfl
  | succ n ih =>
    intro s d
    rw [List.range'_succ, List.getLastD_cons, ih]
    by_cases hn : n = 0
    · subst hn; simp
    · rw [if_neg hn, if_neg (Nat.succ_ne_zero n)]
      omega

/-- Claim C6: the executor attempts exactly `actions[checkpoint .. len)` in
increasing index order; each success commits checkpoint values
`checkpoint+1, checkpoint+2, …` in order before the next action; an I/O
failure aborts immediately, leaving the committed checkpoint at
`checkpoint + (number of successes)`; on success everything from the
checkpoint onward was applied. -/
theorem C6_executor_checkpoint (w : WAL) (fs : FS) (h : w.checkpoint ≤ w.actions.length) :
    (runExecutor w fs).applied =
      (w.actions.drop w.checkpoint).take (runExecutor w fs).applied.length ∧
    (runExecutor w fs).commits =
      List.range' (w.checkpoint + 1) (runExecutor w fs).applied.length ∧
    (runExecutor w fs).commits.getLastD w.checkpoint =
      w.checkpoint + (runExecutor w fs).applied.length ∧
    ((runExecutor w fs).err = none →
      (runExecutor w fs).applied = w.actions.drop w.checkpoint) ∧
    w.checkpoint + (runExecutor w fs).applied.length ≤ w.actions.length := by
  unfold runExecutor
  have hs := execActions_spec (w.actions.drop w.checkpoint) fs w.checkpoint
  refine ⟨hs.1, hs.2.1, ?_, hs.2.2.1, ?_⟩
  · rw [hs.2.1, getLastD_range']
    by_cases hz : (execActions fs w.checkpoint (w.actions.drop w.checkpoint)).applied.length = 0
    · rw [if_pos hz, hz]
      omega
    · rw [if_neg hz]
      omega
  · have hlen := hs.2.2.2
    rw [List.length_drop] at hlen
    omega

/-- Claim C6 witness: a two-action journal run to completion from
checkpoint 0. -/
theorem C6_executor_checkpoint_witness :
    walC6.checkpoint ≤ walC6.actions.length ∧
    (runExecutor walC6 fsC6).applied =
      (walC6.actions.drop walC6.checkpoint).take (runExecutor walC6 fsC6).applied.length ∧
    (runExecutor walC6 fsC6).commits =
      List.range' (walC6.checkpoint + 1) (runExecutor walC6 fsC6).applied.length ∧
    (runExecutor walC6 fsC6).commits.getLastD walC6.checkpoint =
      walC6.checkpoint + (runExecutor walC6 fsC6).applied.length ∧
    ((runExecutor walC6 fsC6).err = none →
      (runExecutor walC6 fsC6).applied = walC6.actions.drop walC6.checkpoint) ∧
    walC6.checkpoint + (runExecutor walC6 fsC6).applied.length ≤ walC6.actions.length :=
  ⟨by decide, C6_executor_checkpoint walC6 fsC6 (by decide)⟩

/-! ## Planner-only-appends and the journal invariant -/

theorem foldl_preserve {β : Type} (P : WAL → Prop) (f : WAL → β → WAL)
    (hstep : ∀ w b, P w → P (f w b)) : ∀ (l : List β) (w : WAL), P w → P (l.foldl f w) := by
  intro l
  induction l with
  | nil => intro w hw; exact hw
  | cons b l ih =>
    intro w hw
    exact ih _ (hstep w b hw)

theorem planStep_append (fs : FS) (w : WAL) (here there : Path) :
    ∃ ext, (planStep fs w here there).actions = w.actions ++ ext ∧
      (planStep fs w here there).checkpoint = w.checkpoint ∧
      (ext = [] → (planStep fs w here there).redirections = w.redirections) := by
  by_cases h1 : here = there
  · exact ⟨[], by simp [planStep, h1], by simp [planStep, h1], fun _ => by simp [planStep, h1]⟩
  · by_cases h2 : checkSame fs here there = true
    · cases hl1 : mapLookup w.redirections here with
      | some p1 =>
        cases hl2 : mapLookup w.redirections there with
        | some p2 =>
          refine ⟨[], ?_, ?_, fun _ => ?_⟩ <;> simp [planStep, h1, h2, hl1, hl2]
        | none =>
          refine ⟨[⟨ActionType.Symlink, there, p1⟩], ?_, ?_, fun hc => ?_⟩
          · simp [planStep, h1, h2, hl1, hl2]
          · simp [planStep, h1, h2, hl1, hl2]
          · exact absurd hc (List.cons_ne_nil _ _)
      | none =>
        cases hl2 : mapLookup w.redirections there with
        | some p2 =>
          refine ⟨[⟨ActionType.Symlink, here, p2⟩], ?_, ?_, fun hc => ?_⟩
          · simp [planStep, h1, h2, hl1, hl2]
          · simp [planStep, h1, h2, hl1, hl2]
          · exact absurd hc (List.cons_ne_nil _ _)
        | none =>
          refine ⟨[⟨ActionType.Copy, here, canonicalPathOf here⟩,
                   ⟨ActionType.Symlink, here, canonicalPathOf here⟩,
                   ⟨ActionType.Symlink, there, canonicalPathOf here⟩], ?_, ?_, fun hc => ?_⟩
          · simp [planStep, h1, h2, hl1, hl2]
          · simp [planStep, h1, h2, hl1, hl2]
          · exact absurd hc (List.cons_ne_nil _ _)
    · have h2' : checkSame fs here there = false := by
        cases hcs : checkSame fs here there
        · rfl
        · exact absurd hcs h2
      exact ⟨[], by simp [planStep, h1, h2'], by simp [planStep, h1, h2'],
        fun _ => by simp [planStep, h1, h2']⟩

theorem planPass_append (fs : FS) (w : WAL) :
    (planPass fs w).checkpoint = w.checkpoint ∧
    ∃ ext, (planPass fs w).actions = w.actions ++ ext := by
  unfold planPass
  have P : WAL → Prop := fun w' =>
    w'.checkpoint = w.checkpoint ∧ ∃ ext, w'.actions = w.actions ++ ext
  have hstep : ∀ (w' : WAL) (here : Path),
      (w'.checkpoint = w.checkpoint ∧ ∃ ext, w'.actions = w.actions ++ ext) →
      (((scanFiles fs).foldl (fun w2 there => planStep fs w2 here there) w').checkpoint =
          w.checkpoint ∧
        ∃ ext, ((scanFiles fs).foldl (fun w2 there => planStep fs w2 here there) w').actions =
          w.actions ++ ext) := by
    intro w' here hw'
    refine foldl_preserve
      (fun w2 => w2.checkpoint = w.checkpoint ∧ ∃ ext, w2.actions = w.actions ++ ext)
      (fun w2 there => planStep fs w2 here there) ?_ (scanFiles fs) w' hw'
    intro w2 there hw2
    obtain ⟨hcp0, e0, he0⟩ := hw2
    obtain ⟨e2, he2, hcp2, _⟩ := planStep_append fs w2 here there
    exact ⟨hcp2.trans hcp0, ⟨e0 ++ e2, by rw [he2, he0, List.append_assoc]⟩⟩
  exact foldl_preserve
    (fun w' => w'.checkpoint = w.checkpoint ∧ ∃ ext, w'.actions = w.actions ++ ext)
    (fun w1 here => (scanFiles fs).foldl (fun w2 there => planStep fs w2 here there) w1)
    hstep (scanFiles fs) w ⟨rfl, ⟨[], by simp⟩⟩

/-- Claim C8: the journal invariant `0 ≤ checkpoint ≤ len(actions)` is
preserved: the planner keeps the checkpoint and only appends actions, and
the executor only advances the checkpoint from `checkpoint` up to at most
`len(actions)`. -/
theorem C8_journal_invariant (fs : FS) (w : WAL) (h : w.checkpoint ≤ w.actions.length) :
    ((planPass fs w).checkpoint = w.checkpoint ∧
     (∃ ext, (planPass fs w).actions = w.actions ++ ext) ∧
     (planPass fs w).checkpoint ≤ (planPass fs w).actions.length) ∧
    (w.checkpoint ≤ w.checkpoint + (runExecutor w fs).applied.length ∧
     w.checkpoint + (runExecutor w fs).applied.length ≤ w.actions.length) := by
  unfold runExecutor
  obtain ⟨hcp, ⟨ext, hext⟩⟩ := planPass_append fs w
  refine ⟨⟨hcp, ⟨ext, hext⟩, ?_⟩, Nat.le_add_right _ _, ?_⟩
  · rw [hcp, hext, List.length_append]
    omega
  · have hlen := (execActions_spec (w.actions.drop w.checkpoint) fs w.checkpoint).2.2.2
    rw [List.length_drop] at hlen
    omega

/-- Claim C8 witness: evaluated on the two-action journal `walC6`. -/
theorem C8_journal_invariant_witness :
    walC6.checkpoint ≤ walC6.actions.length ∧
    ((planPass fsC6 walC6).checkpoint = walC6.checkpoint ∧
     (∃ ext, (planPass fsC6 walC6).actions = walC6.actions ++ ext) ∧
     (planPass fsC6 walC6).checkpoint ≤ (planPass fsC6 walC6).actions.length) ∧
    (walC6.checkpoint ≤ walC6.checkpoint + (runExecutor walC6 fsC6).applied.length ∧
     walC6.checkpoint + (runExecutor walC6 fsC6).applied.length ≤ walC6.actions.length) :=
  ⟨by decide, C8_journal_invariant fsC6 walC6 (by decide)⟩

/-! ## Generic list helpers -/

theorem foldl_id {α β : Type} (f : α → β → α) (w : α) :
    ∀ l : List β, (∀ b ∈ l, f w b = w) → l.foldl f w = w := by
  intro l
  induction l with
  | nil => intro _; rfl
  | cons b l ih =>
    intro h
    rw [List.foldl_cons, h b (List.mem_cons_self b l)]
    exact ih fun b' hb' => h b' (List.mem_cons_of_mem _ hb')

theorem find?_split {α : Type} (f : α → Bool) :
    ∀ (l : List α) (a : α), l.find? f = some a →
      ∃ l1 l2, l = l1 ++ a :: l2 ∧ ∀ x ∈ l1, f x = false := by
  intro l
  induction l with
  | nil => intro a h; exact absurd h (by simp)
  | cons b l ih =>
    intro a h
    cases hb : f b with
    | true =>
      rw [List.find?_cons_of_pos _ hb] at h
      injection h with h
      exact ⟨[], l, by simp [h], by simp⟩
    | false =>
      rw [List.find?_cons_of_neg _ (by simp [hb])] at h
      obtain ⟨l1, l2, heq, hall⟩ := ih a h
      refine ⟨b :: l1, l2, by rw [heq, List.cons_append], ?_⟩
      intro x hx
      rcases List.mem_cons.mp hx with h1 | h2
      · rw [h1]; exact hb
      · exact hall x h2

theorem find?_congr {α : Type} (f g : α → Bool) :
    ∀ l : List α, (∀ x ∈ l, f x = g x) → l.find? f = l.find? g := by
  intro l
  induction l with
  | nil => intro _; rfl
  | cons b l ih =>
    intro h
    have hb : f b = g b := h b (List.mem_cons_self b l)
    cases hgb : g b with
    | true =>
      rw [List.find?_cons_of_pos _ (hb.trans hgb), List.find?_cons_of_pos _ hgb]
    | false =>
      rw [List.find?_cons_of_neg _ (by simp [hb, hgb]),
        List.find?_cons_of_neg _ (by simp [hgb])]
      exact ih fun x hx => h x (List.mem_cons_of_mem _ hx)

theorem split_before {α : Type} :
    ∀ (pre : List α) (suf l1 l2 : List α) (h a : α), (pre ++ h :: suf).Nodup →
      pre ++ h :: suf = l1 ++ a :: l2 → h ∈ l2 → a ∈ pre := by
  intro pre
  induction pre with
  | nil =>
    intro suf l1 l2 h a hnd heq hmem
    exfalso
    have hnotin : h ∉ suf := by
      rw [List.nil_append] at hnd
      exact (List.nodup_cons.mp hnd).1
    cases l1 with
    | nil =>
      rw [List.nil_append, List.nil_append] at heq
      injection heq with h1 h2
      subst h2
      exact hnotin hmem
    | cons b l1 =>
      rw [List.nil_append, List.cons_append] at heq
      injection heq with h1 h2
      apply hnotin
      rw [h2]
      exact List.mem_append_right _ (List.mem_cons_of_mem _ hmem)
  | cons c pre ih =>
    intro suf l1 l2 h a hnd heq hmem
    cases l1 with
    | nil =>
      rw [List.nil_append] at heq
      rw [List.cons_append] at heq
      injection heq with h1 h2
      subst h1
      exact List.mem_cons_self _ _
    | cons b l1 =>
      rw [List.cons_append, List.cons_append] at heq
      injection heq with h1 h2
      have hnd' : (pre ++ h :: suf).Nodup := by
        rw [List.cons_append] at hnd
        exact (List.nodup_cons.mp hnd).2
      exact List.mem_cons_of_mem _ (ih suf l1 l2 h a hnd' h2 hmem)

theorem insertSorted_perm (x : Path) : ∀ l : List Path, (insertSorted x l).Perm (x :: l) := by
  intro l
  induction l with
  | nil => exact List.Perm.refl _
  | cons y l ih =>
    unfold insertSorted
    by_cases h : pathLeB x y = true
    · rw [if_pos h]
    · rw [if_neg h]
      exact List.Perm.trans (List.Perm.cons y ih) (List.Perm.swap x y l)

theorem sortPaths_perm : ∀ l : List Path, (sortPaths l).Perm l := by
  intro l
  induction l with
  | nil => exact List.Perm.refl _
  | cons x l ih =>
    have h1 : sortPaths (x :: l) = insertSorted x (sortPaths l) := rfl
    rw [h1]
    exact List.Perm.trans (insertSorted_perm x (sortPaths l)) (List.Perm.cons x ih)

theorem mapLookup_eq_some_of_mem {α : Type} {m : List (Path × α)} (hw : WFmap m)
    {p : Path} {v : α} (h : (p, v) ∈ m) : mapLookup m p = some v := by
  induction m with
  | nil => exact absurd h (List.not_mem_nil _)
  | cons pv m ih =>
    rcases pv with ⟨q, w⟩
    have hw0 : (q :: keysOf m).Nodup := hw
    rcases List.mem_cons.mp h with h1 | h2
    · have hp : p = q := congrArg Prod.fst h1
      have hv : v = w := congrArg Prod.snd h1
      rw [mapLookup_cons, if_pos hp.symm, hv]
    · by_cases hq : q = p
      · exfalso
        apply (List.nodup_cons.mp hw0).1
        rw [hq]
        exact List.mem_map_of_mem Prod.fst h2
      · rw [mapLookup_cons, if_neg hq]
        exact ih (List.nodup_cons.mp hw0).2 h2

/-! ## Scanner lemmas -/

theorem scanFiles_nodup {fs : FS} (hw : WFmap fs) : (scanFiles fs).Nodup := by
  unfold scanFiles
  apply (sortPaths_perm _).nodup_iff.mpr
  exact List.Nodup.sublist (List.Sublist.map Prod.fst (List.filter_sublist fs)) hw

theorem mem_scanFiles {fs : FS} (hw : WFmap fs) (p : Path) :
    p ∈ scanFiles fs ↔
      (∃ c, mapLookup fs p = some (Entry.file c)) ∧ isMiragePath p = false := by
  unfold scanFiles
  rw [(sortPaths_perm _).mem_iff]
  constructor
  · intro hp
    obtain ⟨pe, hpe, hfst⟩ := List.mem_map.mp hp
    obtain ⟨hpem, hcond⟩ := List.mem_filter.mp hpe
    rw [Bool.and_eq_true] at hcond
    obtain ⟨hfile, hmir⟩ := hcond
    rcases pe with ⟨q, e⟩
    cases e with
    | file c =>
      have hq : q = p := hfst
      subst hq
      refine ⟨⟨c, mapLookup_eq_some_of_mem hw hpem⟩, ?_⟩
      simpa using hmir
    | symlink t => exact absurd hfile (by simp [isEntryFile])
    | dir => exact absurd hfile (by simp [isEntryFile])
  · rintro ⟨⟨c, hlook⟩, hmir⟩
    have hmem := mem_of_mapLookup_some hlook
    apply List.mem_map.mpr
    refine ⟨(p, Entry.file c), List.mem_filter.mpr ⟨hmem, ?_⟩, rfl⟩
    simp [isEntryFile, hmir]

theorem scan_lookup {fs : FS} (hw : WFmap fs) {p : Path} (hp : p ∈ scanFiles fs) :
    mapLookup fs p = some (Entry.file (contentAt fs p)) := by
  obtain ⟨⟨c, hc⟩, _⟩ := (mem_scanFiles hw p).mp hp
  unfold contentAt
  rw [hc]

theorem scan_not_mirage {fs : FS} (hw : WFmap fs) {p : Path} (hp : p ∈ scanFiles fs) :
    isMiragePath p = false :=
  ((mem_scanFiles hw p).mp hp).2

/-! ## Content-equivalence and leader lemmas -/

theorem sameContent_iff (fs : FS) (p q : Path) :
    sameContent fs p q = true ↔ contentAt fs p = contentAt fs q := by
  unfold sameContent
  exact beq_iff_eq

theorem sameContent_refl (fs : FS) (p : Path) : sameContent fs p p = true :=
  (sameContent_iff fs p p).mpr rfl

theorem sameContent_symm {fs : FS} {p q : Path} (h : sameContent fs p q = true) :
    sameContent fs q p = true :=
  (sameContent_iff fs q p).mpr ((sameContent_iff fs p q).mp h).symm

theorem sameContent_trans {fs : FS} {p q r : Path} (h1 : sameContent fs p q = true)
    (h2 : sameContent fs q r = true) : sameContent fs p r = true :=
  (sameContent_iff fs p r).mpr (((sameContent_iff fs p q).mp h1).trans ((sameContent_iff fs q r).mp h2))

theorem isDupFile_iff (fs : FS) (files : List Path) (p : Path) :
    isDupFile fs files p = true ↔ ∃ q ∈ files, q ≠ p ∧ sameContent fs q p = true := by
  unfold isDupFile
  rw [List.any_eq_true]
  constructor
  · rintro ⟨q, hq, hcond⟩
    rw [Bool.and_eq_true] at hcond
    obtain ⟨hne, hsame⟩ := hcond
    exact ⟨q, hq, by simpa using hne, hsame⟩
  · rintro ⟨q, hq, hne, hsame⟩
    refine ⟨q, hq, ?_⟩
    rw [Bool.and_eq_true]
    exact ⟨by simpa using hne, hsame⟩

theorem mem_membersOf_iff (fs : FS) (files : List Path) (h p : Path) :
    p ∈ membersOf fs files h ↔ p ∈ files ∧ sameContent fs p h = true := by
  unfold membersOf
  rw [List.mem_filter]

theorem leaderOf_spec {fs : FS} {files : List Path} {p : Path} (hp : p ∈ files) :
    files.find? (fun q => sameContent fs q p) = some (leaderOf fs files p) ∧
    leaderOf fs files p ∈ files ∧ sameContent fs (leaderOf fs files p) p = true := by
  have hsome : (files.find? (fun q => sameContent fs q p)).isSome := by
    rw [List.find?_isSome]
    exact ⟨p, hp, sameContent_refl fs p⟩
  obtain ⟨a, ha⟩ := Option.isSome_iff_exists.mp hsome
  have hl : leaderOf fs files p = a := by
    unfold leaderOf
    rw [ha]
    rfl
  rw [hl]
  refine ⟨ha, List.mem_of_find?_eq_some ha, ?_⟩
  have hpa := List.find?_some ha
  simpa using hpa

theorem leaderOf_congr {fs : FS} {files : List Path} {p q : Path} (hp : p ∈ files)
    (hsame : sameContent fs p q = true) :
    leaderOf fs files p = leaderOf fs files q := by
  have hc : contentAt fs p = contentAt fs q := (sameContent_iff fs p q).mp hsame
  have hfun : (fun r => sameContent fs r p) = (fun r => sameContent fs r q) := by
    funext r
    unfold sameContent
    rw [hc]
  have hfind : files.find? (fun r => sameContent fs r p) =
      files.find? (fun r => sameContent fs r q) := by rw [hfun]
  have h1 := (@leaderOf_spec fs _ _ hp).1
  unfold leaderOf
  rw [← hfind, h1]
  rfl

theorem leaderOf_idem {fs : FS} {files : List Path} {p : Path} (hp : p ∈ files) :
    leaderOf fs files (leaderOf fs files p) = leaderOf fs files p := by
  have hs := @leaderOf_spec fs files _ hp
  exact leaderOf_congr hs.2.1 hs.2.2

theorem leaderOf_eq_iff_member {fs : FS} {files : List Path} {h p : Path} (hh : h ∈ files)
    (hl : leaderOf fs files h = h) (hp : p ∈ files) :
    leaderOf fs files p = h ↔ sameContent fs p h = true := by
  constructor
  · intro he
    have hs := @leaderOf_spec fs files _ hp
    have := hs.2.2
    rw [he] at this
    exact sameContent_symm this
  · intro hsame
    rw [leaderOf_congr hp hsame, hl]

theorem members_of_leader {fs : FS} {files : List Path} {h : Path} (hnd : files.Nodup)
    (hh : h ∈ files) (hl : leaderOf fs files h = h) :
    ∃ l1 l2, files = l1 ++ h :: l2 ∧ (∀ x ∈ l1, sameContent fs x h = false) ∧
      membersOf fs files h = h :: l2.filter (fun q => sameContent fs q h) := by
  have hfind : files.find? (fun q => sameContent fs q h) = some h := by
    have hs := (@leaderOf_spec fs files _ hh).1
    rw [hl] at hs
    exact hs
  obtain ⟨l1, l2, heq, hfail⟩ := find?_split _ files h hfind
  refine ⟨l1, l2, heq, ?_, ?_⟩
  · intro x hx
    have := hfail x hx
    simpa using this
  · unfold membersOf
    rw [heq, List.filter_append, List.filter_cons]
    have hl1 : l1.filter (fun q => sameContent fs q h) = [] := by
      rw [List.filter_eq_nil_iff]
      intro x hx
      simp [hfail x hx]
    rw [hl1, if_pos (by simpa using sameContent_refl fs h)]
    rfl

theorem membersTail_eq_filter {fs : FS} {files : List Path} {h : Path} (hnd : files.Nodup)
    (hh : h ∈ files) (hl : leaderOf fs files h = h) :
    files.filter (fun t => !(t == h) && sameContent fs t h) = (membersOf fs files h).tail := by
  obtain ⟨l1, l2, heq, hfail, hmem⟩ := members_of_leader hnd hh hl
  rw [hmem, List.tail_cons]
  have hhl2 : h ∉ l2 := by
    rw [heq] at hnd
    have hnd2 := List.Nodup.of_append_right hnd
    exact (List.nodup_cons.mp hnd2).1
  rw [heq, List.filter_append, List.filter_cons]
  have hl1 : l1.filter (fun t => !(t == h) && sameContent fs t h) = [] := by
    rw [List.filter_eq_nil_iff]
    intro x hx
    simp [hfail x hx]
  have hhcond : (!(h == h) && sameContent fs h h) = false := by simp
  rw [hl1, hhcond]
  have hcong : l2.filter (fun t => !(t == h) && sameContent fs t h) =
      l2.filter (fun q => sameContent fs q h) := by
    apply List.filter_congr
    intro t ht
    have hne : (t == h) = false := beq_eq_false_iff_ne.mpr (fun hth => hhl2 (hth ▸ ht))
    simp [hne]
  simp [hcong]

/-! ## The planner's inner scan -/

theorem partialBlock_snoc (h : Path) (ms : List Path) (t : Path) :
    partialBlock h (ms ++ [t]) =
      partialBlock h ms ++ [⟨ActionType.Symlink, t, canonicalPathOf h⟩] := by
  simp [partialBlock]

theorem inner_loop (fs : FS) (files : List Path) (h : Path) (w0 : WAL)
    (hlh : mapLookup w0.redirections h = none)
    (hlmem : ∀ t ∈ files, sameContent fs t h = true → mapLookup w0.redirections t = none) :
    ∀ (rest ms : List Path) (w : WAL),
      (∀ t ∈ rest, t ∈ files) → rest.Nodup → (∀ t ∈ rest, t ∉ ms) →
      InnerState fs h w0 ms w →
      InnerState fs h w0 (ms ++ rest.filter (fun t => !(t == h) && sameContent fs t h))
        (rest.foldl (fun w2 t => planStep fs w2 h t) w) := by
  intro rest
  induction rest with
  | nil =>
    intro ms w _ _ _ hw
    simpa using hw
  | cons t rest ih =>
    intro ms w hsub hnd hdisj hw
    have hsub' : ∀ x ∈ rest, x ∈ files := fun x hx => hsub x (List.mem_cons_of_mem _ hx)
    have hnd' : rest.Nodup := (List.nodup_cons.mp hnd).2
    have htrest : t ∉ rest := (List.nodup_cons.mp hnd).1
    rw [List.foldl_cons, List.filter_cons]
    by_cases hth : t = h
    · subst hth
      have hstep : planStep fs w t t = w := by simp [planStep]
      have hcond : (!(t == t) && sameContent fs t t) = false := by simp
      rw [hstep, hcond]
      simpa using ih ms w hsub' hnd' (fun x hx => hdisj x (List.mem_cons_of_mem _ hx)) hw
    · have hne : ¬(h = t) := fun hh => hth hh.symm
      by_cases hsame : sameContent fs t h = true
      · -- `t` is a further member of `h`'s class
        have htbeq : (t == h) = false := beq_eq_false_iff_ne.mpr hth
        have hcond : (!(t == h) && sameContent fs t h) = true := by simp [htbeq, hsame]
        rw [hcond]
        have hguard : checkSame fs h t = true := by
          rw [checkSame_eq]
          exact sameContent_symm hsame
        have hdisj' : ∀ x ∈ rest, x ∉ ms ++ [t] := by
          intro x hx
          rw [List.mem_append, List.mem_singleton]
          rintro (hxm | hxt)
          · exact hdisj x (List.mem_cons_of_mem _ hx) hxm
          · exact htrest (hxt ▸ hx)
        by_cases hms : ms = []
        · subst hms
          have hww : w = w0 := by
            unfold InnerState at hw
            rwa [if_pos rfl] at hw
          have hlt : mapLookup w.redirections t = none := by
            rw [hww]
            exact hlmem t (hsub t (List.mem_cons_self t rest)) hsame
          have hlh' : mapLookup w.redirections h = none := by
            rw [hww]
            exact hlh
          have hstep : planStep fs w h t =
              ⟨w.actions ++ [⟨ActionType.Copy, h, canonicalPathOf h⟩,
                             ⟨ActionType.Symlink, h, canonicalPathOf h⟩,
                             ⟨ActionType.Symlink, t, canonicalPathOf h⟩],
               mapInsert (mapInsert w.redirections h (canonicalPathOf h)) t (canonicalPathOf h),
               w.checkpoint⟩ := by
            simp [planStep, hne, hguard, hlh', hlt]
          rw [hstep]
          have hstate : InnerState fs h w0 ([] ++ [t])
              ⟨w.actions ++ [⟨ActionType.Copy, h, canonicalPathOf h⟩,
                             ⟨ActionType.Symlink, h, canonicalPathOf h⟩,
                             ⟨ActionType.Symlink, t, canonicalPathOf h⟩],
               mapInsert (mapInsert w.redirections h (canonicalPathOf h)) t (canonicalPathOf h),
               w.checkpoint⟩ := by
            unfold InnerState
            rw [if_neg (by simp)]
            refine ⟨?_, ?_, ?_⟩
            · intro p
              rw [mapLookup_mapInsert, mapLookup_mapInsert]
              by_cases hpt : p = t
              · rw [if_pos hpt, if_pos (by simp [hpt])]
              · rw [if_neg hpt]
                by_cases hph : p = h
                · rw [if_pos hph, if_pos (by simp [hph])]
                · rw [if_neg hph, if_neg (by simp [hph, hpt]), hww]
            · rw [hww]
              rfl
            · rw [hww]
          have := ih ([] ++ [t]) _ hsub' hnd' hdisj' hstate
          simpa using this
        · -- the class is already open: `Symlink` append branch
          unfold InnerState at hw
          rw [if_neg hms] at hw
          obtain ⟨hred, hact, hcp⟩ := hw
          have hlh' : mapLookup w.redirections h = some (canonicalPathOf h) := by
            rw [hred h, if_pos (Or.inl rfl)]
          have hlt : mapLookup w.redirections t = none := by
            have hnotc : ¬(t = h ∨ t ∈ ms) := by
              rintro (hh | hh)
              · exact hth hh
              · exact hdisj t (List.mem_cons_self t rest) hh
            rw [hred t, if_neg hnotc]
            exact hlmem t (hsub t (List.mem_cons_self t rest)) hsame
          have hstep : planStep fs w h t =
              ⟨w.actions ++ [⟨ActionType.Symlink, t, canonicalPathOf h⟩],
               mapInsert w.redirections t (canonicalPathOf h),
               w.checkpoint⟩ := by
            simp [planStep, hne, hguard, hlh', hlt]
          rw [hstep]
          have hstate : InnerState fs h w0 (ms ++ [t])
              ⟨w.actions ++ [⟨ActionType.Symlink, t, canonicalPathOf h⟩],
               mapInsert w.redirections t (canonicalPathOf h),
               w.checkpoint⟩ := by
            unfold InnerState
            rw [if_neg (by simp)]
            refine ⟨?_, ?_, ?_⟩
            · intro p
              rw [mapLookup_mapInsert]
              by_cases hpt : p = t
              · rw [if_pos hpt, if_pos (Or.inr (by rw [List.mem_append, List.mem_singleton]; exact Or.inr hpt))]
              · rw [if_neg hpt, hred p]
                by_cases hcondp : p = h ∨ p ∈ ms
                · have hcondp2 : p = h ∨ p ∈ ms ++ [t] := by
                    rcases hcondp with hc | hc
                    · exact Or.inl hc
                    · exact Or.inr (by rw [List.mem_append]; exact Or.inl hc)
                  rw [if_pos hcondp, if_pos hcondp2]
                · have hcondp2 : ¬(p = h ∨ p ∈ ms ++ [t]) := by
                    rintro (hc | hc)
                    · exact hcondp (Or.inl hc)
                    · rw [List.mem_append, List.mem_singleton] at hc
                      rcases hc with hc | hc
                      · exact hcondp (Or.inr hc)
                      · exact hpt hc
                  rw [if_neg hcondp, if_neg hcondp2]
            · rw [hact, partialBlock_snoc, List.append_assoc]
            · exact hcp
          have := ih (ms ++ [t]) _ hsub' hnd' hdisj' hstate
          rw [List.append_assoc] at this
          simpa using this
      · -- different content: the planner skips the pair
        have hsame' : sameContent fs t h = false := by
          cases hsc : sameContent fs t h
          · rfl
          · exact absurd hsc hsame
        have hguard : checkSame fs h t = false := by
          rw [checkSame_eq]
          cases hsc : sameContent fs h t
          · exact hsc
          · exact absurd (sameContent_symm hsc) (by simp [hsame'])
        have hstep : planStep fs w h t = w := by
          simp [planStep, hne, hguard]
        have hcond : (!(t == h) && sameContent fs t h) = false := by simp [hsame']
        rw [hstep, hcond]
        simpa using ih ms w hsub' hnd' (fun x hx => hdisj x (List.mem_cons_of_mem _ hx)) hw

/-! ## The planner's outer scan -/

theorem dup_of_leader_eq {fs : FS} {files : List Path} {p h : Path} (hp : p ∈ files)
    (hpd : isDupFile fs files p = true) (hl : leaderOf fs files p = h) :
    isDupFile fs files h = true := by
  by_cases hph : p = h
  · rwa [hph] at hpd
  · rw [isDupFile_iff]
    have hs := (@leaderOf_spec fs files _ hp).2.2
    rw [hl] at hs
    exact ⟨p, hp, hph, sameContent_symm hs⟩

theorem planInv_extend_nonleader (fs : FS) (files pre : List Path) (h : Path) (w : WAL)
    (hnl : isLeader fs files h = false)
    (hnoleadp : ∀ p ∈ files, isDupFile fs files p = true → leaderOf fs files p ≠ h)
    (hinv : PlanInv fs files pre w) : PlanInv fs files (pre ++ [h]) w := by
  obtain ⟨hred, hact, hcp⟩ := hinv
  refine ⟨?_, ?_, hcp⟩
  · intro p
    rw [hred p]
    by_cases hc1 : p ∈ files ∧ isDupFile fs files p = true ∧ leaderOf fs files p ∈ pre
    · rw [if_pos hc1, if_pos ⟨hc1.1, hc1.2.1, List.mem_append_left _ hc1.2.2⟩]
    · have hneg2 : ¬(p ∈ files ∧ isDupFile fs files p = true ∧
          leaderOf fs files p ∈ pre ++ [h]) := by
        rintro ⟨hpf, hpd, hpl⟩
        apply hc1
        refine ⟨hpf, hpd, ?_⟩
        rcases List.mem_append.mp hpl with hm | hm
        · exact hm
        · rw [List.mem_singleton] at hm
          exact absurd hm (hnoleadp p hpf hpd)
      rw [if_neg hc1, if_neg hneg2]
  · rw [hact, List.filter_append]
    have hfil : [h].filter (isLeader fs files) = [] := by
      simp [List.filter_cons, hnl]
    rw [hfil, List.append_nil]

theorem outer_step (fs : FS) (files : List Path) (hnd : files.Nodup)
    (pre suf : List Path) (h : Path) (hsplit : files = pre ++ h :: suf)
    (w : WAL) (hinv : PlanInv fs files pre w) :
    PlanInv fs files (pre ++ [h])
      (files.foldl (fun w2 t => planStep fs w2 h t) w) := by
  have hh : h ∈ files := by
    rw [hsplit]
    exact List.mem_append_right _ (List.mem_cons_self _ _)
  have hnd2 : (pre ++ h :: suf).Nodup := hsplit ▸ hnd
  have hpre_h : h ∉ pre := fun hmem =>
    (List.nodup_append.mp hnd2).2.2 hmem (List.mem_cons_self _ _)
  obtain ⟨hred, hact, hcp⟩ := hinv
  by_cases hdup : isDupFile fs files h = true
  · by_cases hlead : leaderOf fs files h = h
    · -- Case C: a fresh leader; run the inner-scan characterization.
      obtain ⟨l1, l2, heqm, hfailm, hmem2⟩ := members_of_leader hnd hh hlead
      have hhl2 : h ∉ l2 := by
        rw [heqm] at hnd
        exact (List.nodup_cons.mp (List.Nodup.of_append_right hnd)).1
      have hlh0 : mapLookup w.redirections h = none := by
        have hng : ¬(h ∈ files ∧ isDupFile fs files h = true ∧ leaderOf fs files h ∈ pre) := by
          rintro ⟨_, _, hmem⟩
          rw [hlead] at hmem
          exact hpre_h hmem
        rw [hred h, if_neg hng]
      have hlm : ∀ t ∈ files, sameContent fs t h = true →
          mapLookup w.redirections t = none := by
        intro t ht hsame
        have hlt : leaderOf fs files t = leaderOf fs files h := leaderOf_congr ht hsame
        have hng : ¬(t ∈ files ∧ isDupFile fs files t = true ∧ leaderOf fs files t ∈ pre) := by
          rintro ⟨_, _, hmem⟩
          rw [hlt, hlead] at hmem
          exact hpre_h hmem
        rw [hred t, if_neg hng]
      have hstart : InnerState fs h w [] w := by
        unfold InnerState
        rw [if_pos rfl]
      have hloop := inner_loop fs files h w hlh0 hlm files [] w (fun t ht => ht) hnd
        (by simp) hstart
      rw [List.nil_append, membersTail_eq_filter hnd hh hlead] at hloop
      have htail_ne : (membersOf fs files h).tail ≠ [] := by
        obtain ⟨q, hq, hqh, hqs⟩ := (isDupFile_iff fs files h).mp hdup
        have hqmem : q ∈ membersOf fs files h := (mem_membersOf_iff _ _ _ _).mpr ⟨hq, hqs⟩
        rw [hmem2] at hqmem ⊢
        rw [List.tail_cons]
        rcases List.mem_cons.mp hqmem with hc | hc
        · exact absurd hc hqh
        · intro hnil
          rw [hnil] at hc
          exact List.not_mem_nil q hc
      unfold InnerState at hloop
      rw [if_neg htail_ne] at hloop
      obtain ⟨hred', hact', hcp'⟩ := hloop
      have hmem_tail_ne_h : ∀ p ∈ (membersOf fs files h).tail, p ≠ h := by
        intro p hp
        rw [hmem2, List.tail_cons] at hp
        exact fun hph => hhl2 (hph ▸ List.mem_of_mem_filter hp)
      refine ⟨?_, ?_, hcp'.trans hcp⟩
      · intro p
        rw [hred' p]
        by_cases hpm : p = h ∨ p ∈ (membersOf fs files h).tail
        · have hpmem : p ∈ membersOf fs files h := by
            rcases hpm with hc | hc
            · rw [hc]
              exact (mem_membersOf_iff _ _ _ _).mpr ⟨hh, sameContent_refl _ _⟩
            · rw [hmem2]
              rw [hmem2, List.tail_cons] at hc
              exact List.mem_cons_of_mem _ hc
          obtain ⟨hpf, hps⟩ := (mem_membersOf_iff _ _ _ _).mp hpmem
          have hlp : leaderOf fs files p = h := by
            rw [leaderOf_congr hpf hps, hlead]
          have hdp : isDupFile fs files p = true := by
            rcases hpm with hc | hc
            · rw [hc]; exact hdup
            · rw [isDupFile_iff]
              exact ⟨h, hh, fun hhp => (hmem_tail_ne_h p hc) hhp.symm,
                sameContent_symm hps⟩
          rw [if_pos hpm,
            if_pos ⟨hpf, hdp, by rw [hlp]; exact List.mem_append_right _ (List.mem_cons_self _ _)⟩,
            hlp]
        · rw [if_neg hpm, hred p]
          by_cases hc1 : p ∈ files ∧ isDupFile fs files p = true ∧ leaderOf fs files p ∈ pre
          · rw [if_pos hc1, if_pos ⟨hc1.1, hc1.2.1, List.mem_append_left _ hc1.2.2⟩]
          · have hneg2 : ¬(p ∈ files ∧ isDupFile fs files p = true ∧
                leaderOf fs files p ∈ pre ++ [h]) := by
              rintro ⟨hpf, hpd, hpl⟩
              rcases List.mem_append.mp hpl with hm | hm
              · exact hc1 ⟨hpf, hpd, hm⟩
              · rw [List.mem_singleton] at hm
                apply hpm
                have hps : sameContent fs p h = true := by
                  have hs := (@leaderOf_spec fs files _ hpf).2.2
                  rw [hm] at hs
                  exact sameContent_symm hs
                have hpmem : p ∈ membersOf fs files h :=
                  (mem_membersOf_iff _ _ _ _).mpr ⟨hpf, hps⟩
                rw [hmem2] at hpmem
                rcases List.mem_cons.mp hpmem with hc | hc
                · exact Or.inl hc
                · rw [hmem2, List.tail_cons]
                  exact Or.inr hc
            rw [if_neg hc1, if_neg hneg2]
      · rw [hact', hact, List.filter_append]
        have hlt : isLeader fs files h = true := by
          unfold isLeader
          rw [hdup]
          simp [hlead]
        have hfil : [h].filter (isLeader fs files) = [h] := by
          simp [List.filter_cons, hlt]
        rw [hfil, List.flatMap_append]
        have hblk : List.flatMap [h] (blockOf fs files) = blockOf fs files h := by
          simp
        rw [hblk]
        have hbo : blockOf fs files h = partialBlock h ((membersOf fs files h).tail) := rfl
        rw [hbo]
    · -- Case B: `h`'s class was opened earlier; every pair is skipped.
      have hlpre : leaderOf fs files h ∈ pre := by
        obtain ⟨l1, l2, heq2, hfail2⟩ :=
          find?_split _ files _ (@leaderOf_spec fs files _ hh).1
        have hhl1 : h ∉ l1 := by
          intro hmem
          have := hfail2 h hmem
          rw [sameContent_refl] at this
          simp at this
        have hhl2 : h ∈ l2 := by
          have hmem : h ∈ l1 ++ leaderOf fs files h :: l2 := heq2 ▸ hh
          rcases List.mem_append.mp hmem with hm | hm
          · exact absurd hm hhl1
          · rcases List.mem_cons.mp hm with hm | hm
            · exact absurd hm.symm hlead
            · exact hm
        exact split_before pre suf l1 l2 h (leaderOf fs files h) hnd2
          (hsplit.symm.trans heq2) hhl2
      have hid : files.foldl (fun w2 t => planStep fs w2 h t) w = w := by
        apply foldl_id
        intro t ht
        by_cases hth : h = t
        · simp [planStep, hth]
        · by_cases hsame : sameContent fs h t = true
          · have hlookh : mapLookup w.redirections h =
                some (canonicalPathOf (leaderOf fs files h)) := by
              rw [hred h, if_pos ⟨hh, hdup, hlpre⟩]
            have htd : isDupFile fs files t = true := by
              rw [isDupFile_iff]
              exact ⟨h, hh, hth, hsame⟩
            have hlt_eq : leaderOf fs files t = leaderOf fs files h :=
              leaderOf_congr ht (sameContent_symm hsame)
            have hlookt : mapLookup w.redirections t =
                some (canonicalPathOf (leaderOf fs files t)) := by
              rw [hred t, if_pos ⟨ht, htd, by rw [hlt_eq]; exact hlpre⟩]
            have hguard : checkSame fs h t = true := by
              rw [checkSame_eq]
              exact hsame
            simp [planStep, hth, hguard, hlookh, hlookt]
          · have hguard : checkSame fs h t = false := by
              rw [checkSame_eq]
              cases hsc : sameContent fs h t
              · exact hsc
              · exact absurd hsc hsame
            simp [planStep, hth, hguard]
      rw [hid]
      apply planInv_extend_nonleader fs files pre h w ?nl ?nolead ⟨hred, hact, hcp⟩
      case nl =>
        unfold isLeader
        rw [hdup]
        simp [hlead]
      case nolead =>
        intro p hpf hpd hm
        apply hlead
        have hidem := @leaderOf_idem fs files _ hpf
        rw [hm] at hidem
        exact hidem
  · -- Case A: `h` has no duplicate; every pair is skipped.
    have hid : files.foldl (fun w2 t => planStep fs w2 h t) w = w := by
      apply foldl_id
      intro t ht
      by_cases hth : h = t
      · simp [planStep, hth]
      · have hsame : sameContent fs t h = false := by
          cases hsc : sameContent fs t h
          · rfl
          · exact absurd ((isDupFile_iff fs files h).mpr
              ⟨t, ht, fun hh' => hth hh'.symm, hsc⟩) hdup
        have hguard : checkSame fs h t = false := by
          rw [checkSame_eq]
          cases hsc : sameContent fs h t
          · exact hsc
          · exact absurd (sameContent_symm hsc) (by simp [hsame])
        simp [planStep, hth, hguard]
    rw [hid]
    apply planInv_extend_nonleader fs files pre h w ?nl2 ?nolead2 ⟨hred, hact, hcp⟩
    case nl2 =>
      unfold isLeader
      cases hdd : isDupFile fs files h
      · rfl
      · exact absurd hdd hdup
    case nolead2 =>
      intro p hpf hpd hm
      exact hdup (dup_of_leader_eq hpf hpd hm)

theorem outer_loop (fs : FS) (files : List Path) (hnd : files.Nodup) :
    ∀ (suf pre : List Path) (w : WAL),
      files = pre ++ suf → PlanInv fs files pre w →
      PlanInv fs files (pre ++ suf)
        (suf.foldl (fun w1 hh => files.foldl (fun w2 t => planStep fs w2 hh t) w1) w) := by
  intro suf
  induction suf with
  | nil =>
    intro pre w _ hinv
    simpa using hinv
  | cons h suf ih =>
    intro pre w hsplit hinv
    rw [List.foldl_cons]
    have hstep := outer_step fs files hnd pre suf h hsplit w hinv
    have hsplit2 : files = (pre ++ [h]) ++ suf := by
      rw [hsplit, List.append_assoc, List.singleton_append]
    have := ih (pre ++ [h]) _ hsplit2 hstep
    rw [List.append_assoc, List.singleton_append] at this
    exact this

/-- The planner characterization: run from the fresh journal, the planner
produces exactly one contiguous block per discovered equivalence class (in
leader order), and redirects exactly the members of those classes to their
leaders' canonical paths. -/
theorem planPass_characterization (fs : FS) (hnd : (scanFiles fs).Nodup) :
    PlanInv fs (scanFiles fs) (scanFiles fs) (planPass fs WAL.empty) := by
  have hstart : PlanInv fs (scanFiles fs) [] WAL.empty := by
    refine ⟨?_, rfl, rfl⟩
    intro p
    rw [if_neg (by rintro ⟨_, _, hmem⟩; exact List.not_mem_nil _ hmem)]
    rfl
  have := outer_loop fs (scanFiles fs) hnd (scanFiles fs) [] WAL.empty (by simp) hstart
  simpa [planPass] using this

/-! ## Path-resolution and single-action executor lemmas -/

theorem mapErase_mapErase {α : Type} (m : List (Path × α)) (p : Path) :
    mapErase (mapErase m p) p = mapErase m p := by
  induction m with
  | nil => rfl
  | cons pv m ih =>
    rcases pv with ⟨q, w⟩
    rw [mapErase_cons]
    by_cases hq : q = p
    · rw [if_pos hq, ih]
    · rw [if_neg hq, mapErase_cons, if_neg hq, ih]

theorem resolveLink_succ_nonlink {fs : FS} {p : Path} (n : Nat)
    (h : ∀ t, mapLookup fs p ≠ some (Entry.symlink t)) :
    resolveLink fs (n + 1) p = some p := by
  cases hl : mapLookup fs p with
  | none => simp [resolveLink, hl]
  | some e =>
    cases e with
    | file c => simp [resolveLink, hl]
    | symlink t => exact absurd hl (h t)
    | dir => simp [resolveLink, hl]

theorem resolveLink_fuel_nonlink {fs : FS} {p : Path}
    (h : ∀ t, mapLookup fs p ≠ some (Entry.symlink t)) :
    resolveLink fs linkFuel p = some p :=
  resolveLink_succ_nonlink 39 h

theorem resolveFileContent_file {fs : FS} {p : Path} {c : List Byte}
    (h : mapLookup fs p = some (Entry.file c)) :
    resolveFileContent fs p = some c := by
  unfold resolveFileContent
  rw [resolveLink_fuel_nonlink (fun t ht => by rw [h] at ht; cases ht)]
  simp [h]

theorem pathExists_file {fs : FS} {p : Path} {c : List Byte}
    (h : mapLookup fs p = some (Entry.file c)) : pathExists fs p = true := by
  unfold pathExists
  rw [resolveLink_fuel_nonlink (fun t ht => by rw [h] at ht; cases ht)]
  simp [h]

/-- Resolution through a symlink whose referent is a regular file. -/
theorem resolveFileContent_via_symlink {fs : FS} {p q : Path} {c : List Byte}
    (hp : mapLookup fs p = some (Entry.symlink q))
    (hq : mapLookup fs q = some (Entry.file c)) :
    resolveFileContent fs p = some c := by
  unfold resolveFileContent
  have h1 : resolveLink fs linkFuel p = resolveLink fs 39 q := by
    show resolveLink fs (39 + 1) p = resolveLink fs 39 q
    simp [resolveLink, hp]
  have h2 : resolveLink fs 39 q = some q :=
    resolveLink_succ_nonlink 38 (fun t ht => by rw [hq] at ht; cases ht)
  rw [h1, h2]
  simp [hq]

theorem pathExists_via_symlink {fs : FS} {p q : Path} {c : List Byte}
    (hp : mapLookup fs p = some (Entry.symlink q))
    (hq : mapLookup fs q = some (Entry.file c)) : pathExists fs p = true := by
  unfold pathExists
  have h1 : resolveLink fs linkFuel p = resolveLink fs 39 q := by
    show resolveLink fs (39 + 1) p = resolveLink fs 39 q
    simp [resolveLink, hp]
  have h2 : resolveLink fs 39 q = some q :=
    resolveLink_succ_nonlink 38 (fun t ht => by rw [hq] at ht; cases ht)
  rw [h1, h2]
  simp [hq]

theorem execApply_copy_ok {fs : FS} {s t : Path} {c : List Byte}
    (hs : mapLookup fs s = some (Entry.file c))
    (ht : mapLookup fs t = none ∨ ∃ ct, mapLookup fs t = some (Entry.file ct)) :
    execApplyAction fs ⟨ActionType.Copy, s, t⟩ = .ok (mapInsert fs t (Entry.file c)) := by
  have hnl : ∀ u, mapLookup fs t ≠ some (Entry.symlink u) := by
    intro u hu
    rcases ht with h0 | ⟨ct, h0⟩ <;> rw [h0] at hu <;> cases hu
  unfold execApplyAction
  rw [resolveFileContent_file hs, resolveLink_fuel_nonlink hnl]
  rcases ht with h0 | ⟨ct, h0⟩ <;> simp [h0]

theorem execApply_symlink_ok {fs : FS} {s t : Path} {c : List Byte}
    (hs : mapLookup fs s = some (Entry.file c)) :
    execApplyAction fs ⟨ActionType.Symlink, s, t⟩ =
      .ok (mapInsert fs s (Entry.symlink t)) := by
  have hnone : mapLookup (mapErase fs s) s = none := by
    rw [mapLookup_mapErase, if_pos rfl]
  have hcol : mapInsert (mapErase fs s) s (Entry.symlink t) =
      mapInsert fs s (Entry.symlink t) := by
    unfold mapInsert
    rw [mapErase_mapErase]
  have hstep : execApplyAction fs ⟨ActionType.Symlink, s, t⟩ =
      (if (mapLookup (mapErase fs s) s).isSome then Except.error MErr.errorDuringIo
       else Except.ok (mapInsert (mapErase fs s) s (Entry.symlink t))) := by
    unfold execApplyAction
    rw [pathExists_file hs]
    simp [hs]
  rw [hstep, hnone, hcol]
  simp

/-! ## Block execution -/

theorem execActions_append_err (l1 : List Action) : ∀ (l2 : List Action) (fs : FS) (cp : Nat),
    (execActions fs cp l1).err = none →
    (execActions fs cp (l1 ++ l2)).err =
      (execActions (execActions fs cp l1).fs (cp + l1.length) l2).err ∧
    (execActions fs cp (l1 ++ l2)).fs =
      (execActions (execActions fs cp l1).fs (cp + l1.length) l2).fs := by
  induction l1 with
  | nil =>
    intro l2 fs cp _
    simp [execActions]
  | cons a l1 ih =>
    intro l2 fs cp herr
    cases hstep : execApplyAction fs a with
    | error e =>
      exfalso
      simp [execActions, hstep] at herr
    | ok fs1 =>
      have herr1 : (execActions fs1 (cp + 1) l1).err = none := by
        simpa [execActions, hstep] using herr
      have hih := ih l2 fs1 (cp + 1) herr1
      have hl : (a :: l1) ++ l2 = a :: (l1 ++ l2) := rfl
      constructor
      · rw [hl]
        have e1 : (execActions fs cp (a :: (l1 ++ l2))).err =
            (execActions fs1 (cp + 1) (l1 ++ l2)).err := by
          simp [execActions, hstep]
        have e2 : (execActions fs cp (a :: l1)).fs = (execActions fs1 (cp + 1) l1).fs := by
          simp [execActions, hstep]
        rw [e1, hih.1, e2]
        have : cp + (a :: l1).length = cp + 1 + l1.length := by
          simp
          omega
        rw [this]
      · rw [hl]
        have e1 : (execActions fs cp (a :: (l1 ++ l2))).fs =
            (execActions fs1 (cp + 1) (l1 ++ l2)).fs := by
          simp [execActions, hstep]
        have e2 : (execActions fs cp (a :: l1)).fs = (execActions fs1 (cp + 1) l1).fs := by
          simp [execActions, hstep]
        rw [e1, hih.2, e2]
        have : cp + (a :: l1).length = cp + 1 + l1.length := by
          simp
          omega
        rw [this]

theorem exec_symlinks (P : Path) : ∀ (tl : List Path) (fs : FS) (cp : Nat),
    tl.Nodup →
    (∀ m ∈ tl, ∃ cm, mapLookup fs m = some (Entry.file cm)) →
    (execActions fs cp (tl.map (fun m => ⟨ActionType.Symlink, m, P⟩))).err = none ∧
    (∀ p, mapLookup (execActions fs cp (tl.map (fun m => ⟨ActionType.Symlink, m, P⟩))).fs p =
      if p ∈ tl then some (Entry.symlink P) else mapLookup fs p) := by
  intro tl
  induction tl with
  | nil =>
    intro fs cp _ _
    exact ⟨rfl, fun p => by simp [execActions]⟩
  | cons m tl ih =>
    intro fs cp hnd hfiles
    obtain ⟨cm, hcm⟩ := hfiles m (List.mem_cons_self _ _)
    have hstep := execApply_symlink_ok (t := P) hcm
    have hfiles' : ∀ x ∈ tl, ∃ cx,
        mapLookup (mapInsert fs m (Entry.symlink P)) x = some (Entry.file cx) := by
      intro x hx
      obtain ⟨cx, hcx⟩ := hfiles x (List.mem_cons_of_mem _ hx)
      refine ⟨cx, ?_⟩
      rw [mapLookup_mapInsert, if_neg (fun (hxm : x = m) => (List.nodup_cons.mp hnd).1 (hxm ▸ hx))]
      exact hcx
    obtain ⟨herr, hchar⟩ :=
      ih (mapInsert fs m (Entry.symlink P)) (cp + 1) (List.nodup_cons.mp hnd).2 hfiles'
    have hres : execActions fs cp ((m :: tl).map (fun m => ⟨ActionType.Symlink, m, P⟩)) =
        ⟨(execActions (mapInsert fs m (Entry.symlink P)) (cp + 1)
            (tl.map (fun m => ⟨ActionType.Symlink, m, P⟩))).fs,
         (cp + 1) :: (execActions (mapInsert fs m (Entry.symlink P)) (cp + 1)
            (tl.map (fun m => ⟨ActionType.Symlink, m, P⟩))).commits,
         ⟨ActionType.Symlink, m, P⟩ :: (execActions (mapInsert fs m (Entry.symlink P)) (cp + 1)
            (tl.map (fun m => ⟨ActionType.Symlink, m, P⟩))).applied,
         (execActions (mapInsert fs m (Entry.symlink P)) (cp + 1)
            (tl.map (fun m => ⟨ActionType.Symlink, m, P⟩))).err⟩ := by
      simp [execActions, List.map_cons, hstep]
    rw [hres]
    refine ⟨herr, ?_⟩
    intro p
    rw [hchar p]
    by_cases hpt : p ∈ tl
    · rw [if_pos hpt, if_pos (List.mem_cons_of_mem _ hpt)]
    · rw [if_neg hpt, mapLookup_mapInsert]
      by_cases hpm : p = m
      · rw [if_pos hpm, if_pos (by rw [hpm]; exact List.mem_cons_self _ _)]
      · rw [if_neg hpm, if_neg (by
          rw [List.mem_cons]
          rintro (hc | hc)
          · exact hpm hc
          · exact hpt hc)]

theorem exec_partialBlock (h : Path) (tl : List Path) (fs : FS) (cp : Nat) (c : List Byte)
    (hnd : (h :: tl).Nodup)
    (hP : ∀ m ∈ h :: tl, m ≠ canonicalPathOf h)
    (hch : mapLookup fs h = some (Entry.file c))
    (hmem : ∀ m ∈ tl, ∃ cm, mapLookup fs m = some (Entry.file cm))
    (hPfile : mapLookup fs (canonicalPathOf h) = none ∨
      ∃ cP, mapLookup fs (canonicalPathOf h) = some (Entry.file cP)) :
    (execActions fs cp (partialBlock h tl)).err = none ∧
    (∀ p, mapLookup (execActions fs cp (partialBlock h tl)).fs p =
      if p ∈ h :: tl then some (Entry.symlink (canonicalPathOf h))
      else if p = canonicalPathOf h then some (Entry.file c)
      else mapLookup fs p) := by
  have hcopy := execApply_copy_ok (t := canonicalPathOf h) hch hPfile
  have hh1 : mapLookup (mapInsert fs (canonicalPathOf h) (Entry.file c)) h =
      some (Entry.file c) := by
    rw [mapLookup_mapInsert, if_neg (hP h (List.mem_cons_self _ _))]
    exact hch
  have hsym := execApply_symlink_ok (t := canonicalPathOf h) hh1
  have hmem2 : ∀ m ∈ tl, ∃ cm,
      mapLookup (mapInsert (mapInsert fs (canonicalPathOf h) (Entry.file c)) h
        (Entry.symlink (canonicalPathOf h))) m = some (Entry.file cm) := by
    intro m hm
    obtain ⟨cm, hcmm⟩ := hmem m hm
    refine ⟨cm, ?_⟩
    rw [mapLookup_mapInsert, if_neg (fun (hmh : m = h) => (List.nodup_cons.mp hnd).1 (hmh ▸ hm)),
      mapLookup_mapInsert, if_neg (hP m (List.mem_cons_of_mem _ hm))]
    exact hcmm
  obtain ⟨herr3, hchar3⟩ := exec_symlinks (canonicalPathOf h) tl
    (mapInsert (mapInsert fs (canonicalPathOf h) (Entry.file c)) h
      (Entry.symlink (canonicalPathOf h)))
    (cp + 1 + 1) (List.nodup_cons.mp hnd).2 hmem2
  have hresfs : (execActions fs cp (partialBlock h tl)).fs =
      (execActions (mapInsert (mapInsert fs (canonicalPathOf h) (Entry.file c)) h
          (Entry.symlink (canonicalPathOf h))) (cp + 1 + 1)
        (tl.map (fun m => ⟨ActionType.Symlink, m, canonicalPathOf h⟩))).fs := by
    simp [partialBlock, execActions, hcopy, hsym]
  have hreserr : (execActions fs cp (partialBlock h tl)).err =
      (execActions (mapInsert (mapInsert fs (canonicalPathOf h) (Entry.file c)) h
          (Entry.symlink (canonicalPathOf h))) (cp + 1 + 1)
        (tl.map (fun m => ⟨ActionType.Symlink, m, canonicalPathOf h⟩))).err := by
    simp [partialBlock, execActions, hcopy, hsym]
  refine ⟨by rw [hreserr]; exact herr3, ?_⟩
  intro p
  rw [hresfs, hchar3 p]
  by_cases hpt : p ∈ tl
  · rw [if_pos hpt, if_pos (List.mem_cons_of_mem _ hpt)]
  · have hpmem : (p ∈ h :: tl) ↔ (p = h) := by
      rw [List.mem_cons]
      constructor
      · rintro (hc | hc)
        · exact hc
        · exact absurd hc hpt
      · exact Or.inl
    rw [if_neg hpt, mapLookup_mapInsert, mapLookup_mapInsert]
    by_cases hph : p = h
    · rw [if_pos hph, if_pos (hpmem.mpr hph)]
    · rw [if_neg hph, if_neg (fun hc => hph (hpmem.mp hc))]

/-! ## Whole-plan execution -/

theorem canonicalPathOf_mirage (h : Path) : isMiragePath (canonicalPathOf h) = true := by
  unfold canonicalPathOf isMiragePath
  rw [List.any_append]
  have h1 : originalsDir.any isMirageName = true := by decide
  rw [h1, Bool.true_or]

theorem exec_leaders (fs0 : FS) (files : List Path) :
    ∀ (Ls : List Path) (fs : FS) (cp : Nat),
      Ls.Nodup →
      (∀ x ∈ Ls, ∃ tl, membersOf fs0 files x = x :: tl) →
      (∀ x ∈ Ls, (membersOf fs0 files x).Nodup) →
      (∀ x ∈ Ls, ∀ m ∈ membersOf fs0 files x, isMiragePath m = false ∧
        mapLookup fs m = some (Entry.file (contentAt fs0 m))) →
      (∀ x ∈ Ls, ∀ y ∈ Ls, x ≠ y →
        ∀ m ∈ membersOf fs0 files x, m ∉ membersOf fs0 files y) →
      (∀ x ∈ Ls, mapLookup fs (canonicalPathOf x) = none ∨
        ∃ cP, mapLookup fs (canonicalPathOf x) = some (Entry.file cP)) →
      (execActions fs cp (Ls.flatMap (blockOf fs0 files))).err = none ∧
      (∀ x ∈ Ls, ∀ m ∈ membersOf fs0 files x,
        mapLookup (execActions fs cp (Ls.flatMap (blockOf fs0 files))).fs m =
          some (Entry.symlink (canonicalPathOf x))) ∧
      (∀ p, isMiragePath p = false → (∀ x ∈ Ls, p ∉ membersOf fs0 files x) →
        mapLookup (execActions fs cp (Ls.flatMap (blockOf fs0 files))).fs p =
          mapLookup fs p) ∧
      (∀ q, isMiragePath q = true →
        mapLookup (execActions fs cp (Ls.flatMap (blockOf fs0 files))).fs q = mapLookup fs q ∨
        ∃ cq, mapLookup (execActions fs cp (Ls.flatMap (blockOf fs0 files))).fs q =
          some (Entry.file cq)) ∧
      (∀ q, isMiragePath q = true → (∀ x ∈ Ls, q ≠ canonicalPathOf x) →
        mapLookup (execActions fs cp (Ls.flatMap (blockOf fs0 files))).fs q =
          mapLookup fs q) := by
  intro Ls
  induction Ls with
  | nil =>
    intro fs cp _ _ _ _ _ _
    refine ⟨rfl, by simp, ?_, ?_, ?_⟩
    · intro p _ _
      rfl
    · intro q _
      left
      rfl
    · intro q _ _
      rfl
  | cons x Ls ih =>
    intro fs cp hndL hhead hndm hfiles hdisj hPfs
    have hxLs : x ∉ Ls := (List.nodup_cons.mp hndL).1
    obtain ⟨tl, htl⟩ := hhead x (List.mem_cons_self _ _)
    have hxmem : x ∈ membersOf fs0 files x := by
      rw [htl]
      exact List.mem_cons_self _ _
    have hndx : (x :: tl).Nodup := htl ▸ hndm x (List.mem_cons_self _ _)
    have hPx : ∀ m ∈ x :: tl, m ≠ canonicalPathOf x := by
      intro m hm hmeq
      have hmir := (hfiles x (List.mem_cons_self _ _) m (htl ▸ hm)).1
      rw [hmeq, canonicalPathOf_mirage] at hmir
      cases hmir
    have hchx : mapLookup fs x = some (Entry.file (contentAt fs0 x)) :=
      (hfiles x (List.mem_cons_self _ _) x hxmem).2
    have hmemx : ∀ m ∈ tl, ∃ cm, mapLookup fs m = some (Entry.file cm) := by
      intro m hm
      exact ⟨_, (hfiles x (List.mem_cons_self _ _) m (htl ▸ List.mem_cons_of_mem _ hm)).2⟩
    obtain ⟨herrB, hcharB⟩ := exec_partialBlock x tl fs cp (contentAt fs0 x) hndx hPx hchx
      hmemx (hPfs x (List.mem_cons_self _ _))
    have hblock : blockOf fs0 files x = partialBlock x tl := by
      unfold blockOf partialBlock
      rw [htl, List.tail_cons]
    have hfm : (x :: Ls).flatMap (blockOf fs0 files) =
        partialBlock x tl ++ Ls.flatMap (blockOf fs0 files) := by
      rw [List.flatMap_cons, hblock]
    have happ := execActions_append_err (partialBlock x tl)
      (Ls.flatMap (blockOf fs0 files)) fs cp herrB
    -- hypotheses for the remaining leaders on the post-block filesystem
    have hmemfs1 : ∀ y ∈ Ls, ∀ m ∈ membersOf fs0 files y, isMiragePath m = false ∧
        mapLookup (execActions fs cp (partialBlock x tl)).fs m =
          some (Entry.file (contentAt fs0 m)) := by
      intro y hy m hm
      have hxy : x ≠ y := fun hc => hxLs (hc ▸ hy)
      have hmnx : m ∉ membersOf fs0 files x :=
        hdisj y (List.mem_cons_of_mem _ hy) x (List.mem_cons_self _ _) (fun hc => hxy hc.symm) m hm
      have hmir := (hfiles y (List.mem_cons_of_mem _ hy) m hm).1
      refine ⟨hmir, ?_⟩
      rw [hcharB m, if_neg (htl ▸ hmnx), if_neg (fun hc : m = canonicalPathOf x => by
        rw [hc, canonicalPathOf_mirage] at hmir
        cases hmir)]
      exact (hfiles y (List.mem_cons_of_mem _ hy) m hm).2
    have hPfs1 : ∀ y ∈ Ls, mapLookup (execActions fs cp (partialBlock x tl)).fs
        (canonicalPathOf y) = none ∨
        ∃ cP, mapLookup (execActions fs cp (partialBlock x tl)).fs (canonicalPathOf y) =
          some (Entry.file cP) := by
      intro y hy
      rw [hcharB (canonicalPathOf y)]
      have hnotm : canonicalPathOf y ∉ x :: tl := by
        intro hc
        have hmir := (hfiles x (List.mem_cons_self _ _) (canonicalPathOf y) (htl ▸ hc)).1
        rw [canonicalPathOf_mirage] at hmir
        cases hmir
      rw [if_neg hnotm]
      by_cases hcc : canonicalPathOf y = canonicalPathOf x
      · rw [if_pos hcc]
        exact Or.inr ⟨_, rfl⟩
      · rw [if_neg hcc]
        exact hPfs y (List.mem_cons_of_mem _ hy)
    obtain ⟨herrR, hsymR, hframeR, hmirR, hdirsR⟩ :=
      ih (execActions fs cp (partialBlock x tl)).fs (cp + (partialBlock x tl).length)
        (List.nodup_cons.mp hndL).2
        (fun y hy => hhead y (List.mem_cons_of_mem _ hy))
        (fun y hy => hndm y (List.mem_cons_of_mem _ hy))
        hmemfs1
        (fun y hy z hz => hdisj y (List.mem_cons_of_mem _ hy) z (List.mem_cons_of_mem _ hz))
        hPfs1
    refine ⟨?_, ?_, ?_, ?_, ?_⟩
    · rw [hfm, happ.1]
      exact herrR
    · intro y hy m hm
      rw [hfm, happ.2]
      rcases List.mem_cons.mp hy with hyx | hyLs
      · -- the freshly executed class: preserved by the remaining blocks
        subst hyx
        have hmir := (hfiles y (List.mem_cons_self _ _) m hm).1
        have hnotin : ∀ z ∈ Ls, m ∉ membersOf fs0 files z := by
          intro z hz
          have hyz : y ≠ z := fun hc => hxLs (hc ▸ hz)
          exact hdisj y (List.mem_cons_self _ _) z (List.mem_cons_of_mem _ hz) hyz m hm
        rw [hframeR m hmir hnotin, hcharB m, if_pos (htl ▸ hm)]
      · exact hsymR y hyLs m hm
    · intro p hmir hnot
      rw [hfm, happ.2, hframeR p hmir (fun z hz => hnot z (List.mem_cons_of_mem _ hz)),
        hcharB p, if_neg (htl ▸ hnot x (List.mem_cons_self _ _)),
        if_neg (fun hc : p = canonicalPathOf x => by
          rw [hc, canonicalPathOf_mirage] at hmir
          cases hmir)]
    · intro q hq
      rw [hfm, happ.2]
      rcases hmirR q hq with hun | ⟨cq, hcq⟩
      · rw [hun, hcharB q]
        have hnotm : q ∉ x :: tl := by
          intro hc
          have hmir := (hfiles x (List.mem_cons_self _ _) q (htl ▸ hc)).1
          rw [hq] at hmir
          cases hmir
        rw [if_neg hnotm]
        by_cases hcc : q = canonicalPathOf x
        · rw [if_pos hcc]
          exact Or.inr ⟨_, rfl⟩
        · rw [if_neg hcc]
          exact Or.inl rfl
      · exact Or.inr ⟨cq, hcq⟩
    · intro q hq hnc
      rw [hfm, happ.2,
        hdirsR q hq (fun z hz => hnc z (List.mem_cons_of_mem _ hz)), hcharB q]
      have hnotm : q ∉ x :: tl := by
        intro hc
        have hmir := (hfiles x (List.mem_cons_self _ _) q (htl ▸ hc)).1
        rw [hq] at hmir
        cases hmir
      rw [if_neg hnotm, if_neg (hnc x (List.mem_cons_self _ _))]

theorem exec_leaders_strong (fs0 : FS) (files : List Path) :
    ∀ (Ls : List Path) (fs : FS) (cp : Nat),
      Ls.Nodup →
      (∀ x ∈ Ls, ∃ tl, membersOf fs0 files x = x :: tl) →
      (∀ x ∈ Ls, (membersOf fs0 files x).Nodup) →
      (∀ x ∈ Ls, ∀ m ∈ membersOf fs0 files x, isMiragePath m = false ∧
        mapLookup fs m = some (Entry.file (contentAt fs0 m))) →
      (∀ x ∈ Ls, ∀ y ∈ Ls, x ≠ y →
        ∀ m ∈ membersOf fs0 files x, m ∉ membersOf fs0 files y) →
      (∀ x ∈ Ls, mapLookup fs (canonicalPathOf x) = none) →
      (∀ x ∈ Ls, ∀ y ∈ Ls, x ≠ y → canonicalPathOf x ≠ canonicalPathOf y) →
      (∀ x ∈ Ls, mapLookup (execActions fs cp (Ls.flatMap (blockOf fs0 files))).fs
          (canonicalPathOf x) = some (Entry.file (contentAt fs0 x))) ∧
      (∀ q, isMiragePath q = true → (∀ x ∈ Ls, q ≠ canonicalPathOf x) →
        mapLookup (execActions fs cp (Ls.flatMap (blockOf fs0 files))).fs q =
          mapLookup fs q) := by
  intro Ls
  induction Ls with
  | nil =>
    intro fs cp _ _ _ _ _ _ _
    refine ⟨by simp, ?_⟩
    intro q _ _
    rfl
  | cons x Ls ih =>
    intro fs cp hndL hhead hndm hfiles hdisj hPfs hcanon
    have hxLs : x ∉ Ls := (List.nodup_cons.mp hndL).1
    obtain ⟨tl, htl⟩ := hhead x (List.mem_cons_self _ _)
    have hxmem : x ∈ membersOf fs0 files x := by
      rw [htl]
      exact List.mem_cons_self _ _
    have hndx : (x :: tl).Nodup := htl ▸ hndm x (List.mem_cons_self _ _)
    have hPx : ∀ m ∈ x :: tl, m ≠ canonicalPathOf x := by
      intro m hm hmeq
      have hmir := (hfiles x (List.mem_cons_self _ _) m (htl ▸ hm)).1
      rw [hmeq, canonicalPathOf_mirage] at hmir
      cases hmir
    have hchx : mapLookup fs x = some (Entry.file (contentAt fs0 x)) :=
      (hfiles x (List.mem_cons_self _ _) x hxmem).2
    have hmemx : ∀ m ∈ tl, ∃ cm, mapLookup fs m = some (Entry.file cm) := by
      intro m hm
      exact ⟨_, (hfiles x (List.mem_cons_self _ _) m (htl ▸ List.mem_cons_of_mem _ hm)).2⟩
    obtain ⟨herrB, hcharB⟩ := exec_partialBlock x tl fs cp (contentAt fs0 x) hndx hPx hchx
      hmemx (Or.inl (hPfs x (List.mem_cons_self _ _)))
    have hblock : blockOf fs0 files x = partialBlock x tl := by
      unfold blockOf partialBlock
      rw [htl, List.tail_cons]
    have hfm : (x :: Ls).flatMap (blockOf fs0 files) =
        partialBlock x tl ++ Ls.flatMap (blockOf fs0 files) := by
      rw [List.flatMap_cons, hblock]
    have happ := execActions_append_err (partialBlock x tl)
      (Ls.flatMap (blockOf fs0 files)) fs cp herrB
    have hmemfs1 : ∀ y ∈ Ls, ∀ m ∈ membersOf fs0 files y, isMiragePath m = false ∧
        mapLookup (execActions fs cp (partialBlock x tl)).fs m =
          some (Entry.file (contentAt fs0 m)) := by
      intro y hy m hm
      have hxy : x ≠ y := fun hc => hxLs (hc ▸ hy)
      have hmnx : m ∉ membersOf fs0 files x :=
        hdisj y (List.mem_cons_of_mem _ hy) x (List.mem_cons_self _ _)
          (fun hc => hxy hc.symm) m hm
      have hmir := (hfiles y (List.mem_cons_of_mem _ hy) m hm).1
      refine ⟨hmir, ?_⟩
      rw [hcharB m, if_neg (htl ▸ hmnx), if_neg (fun hc : m = canonicalPathOf x => by
        rw [hc, canonicalPathOf_mirage] at hmir
        cases hmir)]
      exact (hfiles y (List.mem_cons_of_mem _ hy) m hm).2
    have hPfs1 : ∀ y ∈ Ls, mapLookup (execActions fs cp (partialBlock x tl)).fs
        (canonicalPathOf y) = none := by
      intro y hy
      have hnotm : canonicalPathOf y ∉ x :: tl := by
        intro hc
        have hmir := (hfiles x (List.mem_cons_self _ _) (canonicalPathOf y) (htl ▸ hc)).1
        rw [canonicalPathOf_mirage] at hmir
        cases hmir
      have hcc : canonicalPathOf y ≠ canonicalPathOf x :=
        hcanon y (List.mem_cons_of_mem _ hy) x (List.mem_cons_self _ _)
          (fun hc => hxLs (hc ▸ hy))
      rw [hcharB (canonicalPathOf y), if_neg hnotm, if_neg hcc]
      exact hPfs y (List.mem_cons_of_mem _ hy)
    obtain ⟨hbR, hb2R⟩ :=
      ih (execActions fs cp (partialBlock x tl)).fs (cp + (partialBlock x tl).length)
        (List.nodup_cons.mp hndL).2
        (fun y hy => hhead y (List.mem_cons_of_mem _ hy))
        (fun y hy => hndm y (List.mem_cons_of_mem _ hy))
        hmemfs1
        (fun y hy z hz => hdisj y (List.mem_cons_of_mem _ hy) z (List.mem_cons_of_mem _ hz))
        hPfs1
        (fun y hy z hz => hcanon y (List.mem_cons_of_mem _ hy) z (List.mem_cons_of_mem _ hz))
    constructor
    · intro y hy
      rw [hfm, happ.2]
      rcases List.mem_cons.mp hy with hyx | hyLs
      · subst hyx
        have hfr : ∀ z ∈ Ls, canonicalPathOf y ≠ canonicalPathOf z := by
          intro z hz
          exact hcanon y (List.mem_cons_self _ _) z (List.mem_cons_of_mem _ hz)
            (fun hc => hxLs (hc ▸ hz))
        rw [hb2R (canonicalPathOf y) (canonicalPathOf_mirage y) hfr, hcharB (canonicalPathOf y)]
        have hnotm : canonicalPathOf y ∉ y :: tl := by
          intro hc
          have hmir := (hfiles y (List.mem_cons_self _ _) (canonicalPathOf y) (htl ▸ hc)).1
          rw [canonicalPathOf_mirage] at hmir
          cases hmir
        rw [if_neg hnotm, if_pos rfl]
      · exact hbR y hyLs
    · intro q hq hnc
      rw [hfm, happ.2,
        hb2R q hq (fun z hz => hnc z (List.mem_cons_of_mem _ hz)), hcharB q]
      have hnotm : q ∉ x :: tl := by
        intro hc
        have hmir := (hfiles x (List.mem_cons_self _ _) q (htl ▸ hc)).1
        rw [hq] at hmir
        cases hmir
      rw [if_neg hnotm, if_neg (hnc x (List.mem_cons_self _ _))]

/-! ## From the fresh tree to the planning filesystem -/

theorem mirageDir_mirage : isMiragePath mirageDir = true := by decide

theorem originalsDir_mirage : isMiragePath originalsDir = true := by decide

theorem mirageDir_ne_originalsDir : mirageDir ≠ originalsDir := by decide

theorem canonicalPathOf_length (h : Path) : (canonicalPathOf h).length = 3 := by
  simp [canonicalPathOf, originalsDir]

theorem canonicalPathOf_ne_mirageDir (h : Path) : canonicalPathOf h ≠ mirageDir := by
  intro hc
  have hlen := congrArg List.length hc
  rw [canonicalPathOf_length] at hlen
  simp [mirageDir] at hlen

theorem canonicalPathOf_ne_originalsDir (h : Path) : canonicalPathOf h ≠ originalsDir := by
  intro hc
  have hlen := congrArg List.length hc
  rw [canonicalPathOf_length] at hlen
  simp [originalsDir] at hlen

theorem lookup_none_of_mirage {F0 : FS} (hG : GoodTree F0) {q : Path}
    (hq : isMiragePath q = true) : mapLookup F0 q = none := by
  cases hl : mapLookup F0 q with
  | none => rfl
  | some e =>
    have hmem := mem_of_mapLookup_some hl
    have hfalse := hG.2.1 (q, e) hmem
    rw [hq] at hfalse
    cases hfalse

theorem mirageGet_fresh {F0 : FS} (hG : GoodTree F0) :
    mirageGet ⟨F0, none⟩ = .ok (withDirs F0, WAL.empty) := by
  have h1 : mapLookup F0 mirageDir = none := lookup_none_of_mirage hG mirageDir_mirage
  have h2 : mapLookup F0 originalsDir = none := lookup_none_of_mirage hG originalsDir_mirage
  have he1 : ensureDir F0 mirageDir = (mirageDir, Entry.dir) :: F0 := by
    unfold ensureDir mapInsert
    rw [h1, mapErase_eq_self h1]
    rfl
  have hl2 : mapLookup ((mirageDir, Entry.dir) :: F0) originalsDir = none := by
    rw [mapLookup_cons, if_neg mirageDir_ne_originalsDir]
    exact h2
  have he2 : ensureDir ((mirageDir, Entry.dir) :: F0) originalsDir = withDirs F0 := by
    unfold ensureDir mapInsert
    rw [hl2, mapErase_eq_self hl2]
    rfl
  unfold mirageGet
  have hc1 : ((mapLookup F0 mirageDir).isSome && !isDirAt F0 mirageDir) = false := by
    rw [h1]
    rfl
  rw [hc1]
  simp only [Bool.false_eq_true, if_false]
  rw [he1]
  have hc2 : ((mapLookup ((mirageDir, Entry.dir) :: F0) originalsDir).isSome &&
      !isDirAt ((mirageDir, Entry.dir) :: F0) originalsDir) = false := by
    rw [hl2]
    rfl
  rw [hc2]
  simp only [Bool.false_eq_true, if_false]
  rw [he2]

theorem contentAt_withDirs {F0 : FS} (hG : GoodTree F0) :
    contentAt (withDirs F0) = contentAt F0 := by
  funext p
  unfold contentAt withDirs
  rw [mapLookup_cons, mapLookup_cons]
  by_cases h1 : originalsDir = p
  · rw [if_pos h1]
    have hn : mapLookup F0 p = none :=
      lookup_none_of_mirage hG (h1 ▸ originalsDir_mirage)
    rw [hn]
  · rw [if_neg h1]
    by_cases h2 : mirageDir = p
    · rw [if_pos h2]
      have hn : mapLookup F0 p = none :=
        lookup_none_of_mirage hG (h2 ▸ mirageDir_mirage)
      rw [hn]
    · rw [if_neg h2]

theorem sameContent_withDirs {F0 : FS} (hG : GoodTree F0) :
    sameContent (withDirs F0) = sameContent F0 := by
  funext p q
  unfold sameContent
  rw [contentAt_withDirs hG]

theorem scanFiles_withDirs (F0 : FS) : scanFiles (withDirs F0) = scanFiles F0 := by
  unfold scanFiles withDirs
  rw [List.filter_cons, List.filter_cons]
  simp [isEntryFile]

theorem WFmap_withDirs {F0 : FS} (hG : GoodTree F0) : WFmap (withDirs F0) := by
  have h1 : mapLookup F0 mirageDir = none := lookup_none_of_mirage hG mirageDir_mirage
  have h2 : mapLookup F0 originalsDir = none := lookup_none_of_mirage hG originalsDir_mirage
  have hk1 : mirageDir ∉ keysOf F0 := (mapLookup_eq_none_iff _ _).mp h1
  have hk2 : originalsDir ∉ keysOf F0 := (mapLookup_eq_none_iff _ _).mp h2
  show (originalsDir :: mirageDir :: keysOf F0).Nodup
  refine List.Nodup.cons ?_ (List.Nodup.cons hk1 hG.1)
  intro hc
  rcases List.mem_cons.mp hc with hc | hc
  · exact mirageDir_ne_originalsDir hc.symm
  · exact hk2 hc

theorem leaderOf_withDirs {F0 : FS} (hG : GoodTree F0) :
    leaderOf (withDirs F0) = leaderOf F0 := by
  funext files p
  unfold leaderOf
  rw [sameContent_withDirs hG]

theorem isDupFile_withDirs {F0 : FS} (hG : GoodTree F0) :
    isDupFile (withDirs F0) = isDupFile F0 := by
  funext files p
  unfold isDupFile
  rw [sameContent_withDirs hG]

theorem membersOf_withDirs {F0 : FS} (hG : GoodTree F0) :
    membersOf (withDirs F0) = membersOf F0 := by
  funext files h
  unfold membersOf
  rw [sameContent_withDirs hG]

theorem isLeader_withDirs {F0 : FS} (hG : GoodTree F0) :
    isLeader (withDirs F0) = isLeader F0 := by
  funext files h
  unfold isLeader
  rw [leaderOf_withDirs hG, isDupFile_withDirs hG]

theorem blockOf_withDirs {F0 : FS} (hG : GoodTree F0) :
    blockOf (withDirs F0) = blockOf F0 := by
  funext files h
  unfold blockOf
  rw [membersOf_withDirs hG]

theorem lookup_withDirs_nonmirage {F0 : FS} {p : Path} (hp : isMiragePath p = false) :
    mapLookup (withDirs F0) p = mapLookup F0 p := by
  unfold withDirs
  rw [mapLookup_cons, if_neg (fun hc : originalsDir = p => by
      rw [← hc, originalsDir_mirage] at hp
      cases hp),
    mapLookup_cons, if_neg (fun hc : mirageDir = p => by
      rw [← hc, mirageDir_mirage] at hp
      cases hp)]

theorem lookup_withDirs_canonical {F0 : FS} (hG : GoodTree F0) (x : Path) :
    mapLookup (withDirs F0) (canonicalPathOf x) = none := by
  unfold withDirs
  rw [mapLookup_cons, if_neg (fun hc => canonicalPathOf_ne_originalsDir x hc.symm),
    mapLookup_cons, if_neg (fun hc => canonicalPathOf_ne_mirageDir x hc.symm)]
  exact lookup_none_of_mirage hG (canonicalPathOf_mirage x)

theorem members_disjoint {fs : FS} {files : List Path} {x y : Path}
    (hlx : leaderOf fs files x = x) (hly : leaderOf fs files y = y) (hxy : x ≠ y) :
    ∀ m ∈ membersOf fs files x, m ∉ membersOf fs files y := by
  intro m hmx hmy
  obtain ⟨hmf, hms⟩ := (mem_membersOf_iff _ _ _ _).mp hmx
  obtain ⟨_, hms2⟩ := (mem_membersOf_iff _ _ _ _).mp hmy
  have h1 : leaderOf fs files m = leaderOf fs files x := leaderOf_congr hmf hms
  have h2 : leaderOf fs files m = leaderOf fs files y := leaderOf_congr hmf hms2
  exact hxy (by rw [← hlx, ← h1, h2, hly])

theorem mem_leadersOf {fs : FS} {files : List Path} {x : Path}
    (hx : x ∈ leadersOf fs files) :
    x ∈ files ∧ leaderOf fs files x = x ∧ isDupFile fs files x = true := by
  obtain ⟨hmem, hcond⟩ := List.mem_filter.mp hx
  unfold isLeader at hcond
  rw [Bool.and_eq_true] at hcond
  exact ⟨hmem, beq_iff_eq.mp hcond.2, hcond.1⟩

/-- Hypothesis pack for both executor characterizations, instantiated at a
good tree with its side-store directories created. -/
theorem leaders_pack {F0 : FS} (hG : GoodTree F0) :
    (leadersOf F0 (scanFiles F0)).Nodup ∧
    (∀ x ∈ leadersOf F0 (scanFiles F0),
      ∃ tl, membersOf F0 (scanFiles F0) x = x :: tl) ∧
    (∀ x ∈ leadersOf F0 (scanFiles F0), (membersOf F0 (scanFiles F0) x).Nodup) ∧
    (∀ x ∈ leadersOf F0 (scanFiles F0), ∀ m ∈ membersOf F0 (scanFiles F0) x,
      isMiragePath m = false ∧
      mapLookup (withDirs F0) m = some (Entry.file (contentAt (withDirs F0) m))) ∧
    (∀ x ∈ leadersOf F0 (scanFiles F0), ∀ y ∈ leadersOf F0 (scanFiles F0), x ≠ y →
      ∀ m ∈ membersOf F0 (scanFiles F0) x, m ∉ membersOf F0 (scanFiles F0) y) ∧
    (∀ x ∈ leadersOf F0 (scanFiles F0),
      mapLookup (withDirs F0) (canonicalPathOf x) = none) := by
  have hnd : (scanFiles F0).Nodup := scanFiles_nodup hG.1
  refine ⟨List.Nodup.filter _ hnd, ?_, ?_, ?_, ?_, ?_⟩
  · intro x hx
    obtain ⟨hxf, hlx, _⟩ := mem_leadersOf hx
    obtain ⟨l1, l2, _, _, hmem2⟩ := members_of_leader hnd hxf hlx
    exact ⟨l2.filter (fun q => sameContent F0 q x), hmem2⟩
  · intro x _
    exact List.Nodup.filter _ hnd
  · intro x hx m hm
    obtain ⟨hmf, _⟩ := (mem_membersOf_iff _ _ _ _).mp hm
    have hmir : isMiragePath m = false := scan_not_mirage hG.1 hmf
    refine ⟨hmir, ?_⟩
    rw [lookup_withDirs_nonmirage hmir, contentAt_withDirs hG]
    exact scan_lookup hG.1 hmf
  · intro x hx y hy hxy
    exact members_disjoint (mem_leadersOf hx).2.1 (mem_leadersOf hy).2.1 hxy
  · intro x _
    exact lookup_withDirs_canonical hG x

/-! ## Running apply on a fresh good tree -/

theorem planPass_withDirs_spec {F0 : FS} (hG : GoodTree F0) :
    (planPass (withDirs F0) WAL.empty).actions =
      (leadersOf F0 (scanFiles F0)).flatMap (blockOf F0 (scanFiles F0)) ∧
    (planPass (withDirs F0) WAL.empty).checkpoint = 0 ∧
    planRedInv F0 (scanFiles F0) (scanFiles F0)
      (planPass (withDirs F0) WAL.empty).redirections := by
  have hnd : (scanFiles (withDirs F0)).Nodup := by
    rw [scanFiles_withDirs]
    exact scanFiles_nodup hG.1
  obtain ⟨hred, hact, hcp⟩ := planPass_characterization (withDirs F0) hnd
  refine ⟨?_, hcp, ?_⟩
  · rw [hact, scanFiles_withDirs, isLeader_withDirs hG, blockOf_withDirs hG]
    rfl
  · intro p
    have hr := hred p
    rw [scanFiles_withDirs, isDupFile_withDirs hG, leaderOf_withDirs hG] at hr
    exact hr

theorem apply_run {F0 : FS} (hG : GoodTree F0) :
    apply ⟨F0, none⟩ =
      (⟨(execActions (withDirs F0) 0
            ((leadersOf F0 (scanFiles F0)).flatMap (blockOf F0 (scanFiles F0)))).fs,
        some ⟨(leadersOf F0 (scanFiles F0)).flatMap (blockOf F0 (scanFiles F0)),
              (planPass (withDirs F0) WAL.empty).redirections,
              0 + (execActions (withDirs F0) 0
                ((leadersOf F0 (scanFiles F0)).flatMap
                  (blockOf F0 (scanFiles F0)))).applied.length⟩⟩,
       (execActions (withDirs F0) 0
         ((leadersOf F0 (scanFiles F0)).flatMap (blockOf F0 (scanFiles F0)))).err) := by
  obtain ⟨hact, hcp, _⟩ := planPass_withDirs_spec hG
  unfold apply
  rw [mirageGet_fresh hG]
  show (Sys.mk (runExecutor (planPass (withDirs F0) WAL.empty) (withDirs F0)).fs
        (some (WAL.mk (planPass (withDirs F0) WAL.empty).actions
              (planPass (withDirs F0) WAL.empty).redirections
              ((planPass (withDirs F0) WAL.empty).checkpoint +
                (runExecutor (planPass (withDirs F0) WAL.empty) (withDirs F0)).applied.length))),
       (runExecutor (planPass (withDirs F0) WAL.empty) (withDirs F0)).err) =
      (Sys.mk (execActions (withDirs F0) 0
            ((leadersOf F0 (scanFiles F0)).flatMap (blockOf F0 (scanFiles F0)))).fs
        (some (WAL.mk ((leadersOf F0 (scanFiles F0)).flatMap (blockOf F0 (scanFiles F0)))
              (planPass (withDirs F0) WAL.empty).redirections
              (0 + (execActions (withDirs F0) 0
                ((leadersOf F0 (scanFiles F0)).flatMap
                  (blockOf F0 (scanFiles F0)))).applied.length))),
       (execActions (withDirs F0) 0
         ((leadersOf F0 (scanFiles F0)).flatMap (blockOf F0 (scanFiles F0)))).err)
  unfold runExecutor
  rw [hact, hcp, List.drop_zero]

theorem apply_fs_weak {F0 : FS} (hG : GoodTree F0) :
    (apply ⟨F0, none⟩).2 = none ∧
    (apply ⟨F0, none⟩).1.journal =
      some ⟨(leadersOf F0 (scanFiles F0)).flatMap (blockOf F0 (scanFiles F0)),
            (planPass (withDirs F0) WAL.empty).redirections,
            ((leadersOf F0 (scanFiles F0)).flatMap (blockOf F0 (scanFiles F0))).length⟩ ∧
    (∀ x ∈ leadersOf F0 (scanFiles F0), ∀ m ∈ membersOf F0 (scanFiles F0) x,
      mapLookup (apply ⟨F0, none⟩).1.fs m = some (Entry.symlink (canonicalPathOf x))) ∧
    (∀ p, isMiragePath p = false →
      (∀ x ∈ leadersOf F0 (scanFiles F0), p ∉ membersOf F0 (scanFiles F0) x) →
      mapLookup (apply ⟨F0, none⟩).1.fs p = mapLookup (withDirs F0) p) ∧
    (∀ q, isMiragePath q = true →
      mapLookup (apply ⟨F0, none⟩).1.fs q = mapLookup (withDirs F0) q ∨
      ∃ cq, mapLookup (apply ⟨F0, none⟩).1.fs q = some (Entry.file cq)) ∧
    (∀ q, isMiragePath q = true →
      (∀ x ∈ leadersOf F0 (scanFiles F0), q ≠ canonicalPathOf x) →
      mapLookup (apply ⟨F0, none⟩).1.fs q = mapLookup (withDirs F0) q) := by
  obtain ⟨hndL, hhead, hndm, hfiles, hdisj, hPfs⟩ := leaders_pack hG
  have hfiles2 : ∀ x ∈ leadersOf F0 (scanFiles F0), ∀ m ∈ membersOf F0 (scanFiles F0) x,
      isMiragePath m = false ∧
      mapLookup (withDirs F0) m = some (Entry.file (contentAt F0 m)) := by
    intro x hx m hm
    have := hfiles x hx m hm
    rwa [contentAt_withDirs hG] at this
  obtain ⟨herr, hsym, hframe, hmir, hdirs⟩ :=
    exec_leaders F0 (scanFiles F0) (leadersOf F0 (scanFiles F0)) (withDirs F0) 0
      hndL hhead hndm hfiles2 hdisj (fun x hx => Or.inl (hPfs x hx))
  have happlied : (execActions (withDirs F0) 0
      ((leadersOf F0 (scanFiles F0)).flatMap (blockOf F0 (scanFiles F0)))).applied =
      (leadersOf F0 (scanFiles F0)).flatMap (blockOf F0 (scanFiles F0)) :=
    (execActions_spec _ (withDirs F0) 0).2.2.1 herr
  rw [apply_run hG]
  refine ⟨herr, ?_, hsym, hframe, hmir, hdirs⟩
  rw [happlied]
  simp

/-! ## The second apply is a no-op (C7) -/

theorem WFmap_execApplyAction {fs fs1 : FS} (hw : WFmap fs) {a : Action}
    (h : execApplyAction fs a = Except.ok fs1) : WFmap fs1 := by
  unfold execApplyAction at h
  cases hact : a.action with
  | Copy =>
    cases hrc : resolveFileContent fs a.source with
    | none => simp [hact, hrc] at h
    | some c =>
      cases hrl : resolveLink fs linkFuel a.target with
      | none => simp [hact, hrc, hrl] at h
      | some q =>
        cases hlq : mapLookup fs q with
        | none =>
          simp only [hact, hrc, hrl, hlq, Except.ok.injEq] at h
          rw [← h]
          exact WFmap_mapInsert hw q _
        | some e =>
          cases e with
          | dir => simp [hact, hrc, hrl, hlq] at h
          | file c2 =>
            simp only [hact, hrc, hrl, hlq, Except.ok.injEq] at h
            rw [← h]
            exact WFmap_mapInsert hw q _
          | symlink t =>
            simp only [hact, hrc, hrl, hlq, Except.ok.injEq] at h
            rw [← h]
            exact WFmap_mapInsert hw q _
  | Symlink =>
    by_cases hex : pathExists fs a.source = true
    · cases hls : mapLookup fs a.source with
      | none =>
        by_cases hs1 : (mapLookup (mapErase fs a.source) a.source).isSome = true
        · simp [hact, hex, hls, hs1] at h
        · simp only [hact, hex, if_true, hls, hs1, Bool.false_eq_true, if_false,
            Except.ok.injEq] at h
          rw [← h]
          exact WFmap_mapInsert (WFmap_mapErase hw _) _ _
      | some e =>
        cases e with
        | dir => simp [hact, hex, hls] at h
        | file c2 =>
          by_cases hs1 : (mapLookup (mapErase fs a.source) a.source).isSome = true
          · simp [hact, hex, hls, hs1] at h
          · simp only [hact, hex, if_true, hls, hs1, Bool.false_eq_true, if_false,
              Except.ok.injEq] at h
            rw [← h]
            exact WFmap_mapInsert (WFmap_mapErase hw _) _ _
        | symlink t =>
          by_cases hs1 : (mapLookup (mapErase fs a.source) a.source).isSome = true
          · simp [hact, hex, hls, hs1] at h
          · simp only [hact, hex, if_true, hls, hs1, Bool.false_eq_true, if_false,
              Except.ok.injEq] at h
            rw [← h]
            exact WFmap_mapInsert (WFmap_mapErase hw _) _ _
    · by_cases hs1 : (mapLookup fs a.source).isSome = true
      · simp [hact, hex, hs1] at h
      · simp only [hact, hex, Bool.false_eq_true, if_false, hs1, Except.ok.injEq] at h
        rw [← h]
        exact WFmap_mapInsert hw _ _
  | NOP =>
    rw [hact] at h
    simp only [Except.ok.injEq] at h
    rw [← h]
    exact hw

theorem WFmap_execActions (l : List Action) : ∀ (fs : FS) (cp : Nat), WFmap fs →
    WFmap (execActions fs cp l).fs := by
  induction l with
  | nil =>
    intro fs cp hw
    exact hw
  | cons a rest ih =>
    intro fs cp hw
    unfold execActions
    cases hea : execApplyAction fs a with
    | error e => exact hw
    | ok fs1 => exact ih fs1 (cp + 1) (WFmap_execApplyAction hw hea)

theorem WFmap_apply {F0 : FS} (hG : GoodTree F0) : WFmap (apply ⟨F0, none⟩).1.fs := by
  rw [apply_run hG]
  exact WFmap_execActions _ _ _ (WFmap_withDirs hG)

/-- Every file the second scan sees kept its original content: it was no
duplicate-class member, so the executor never touched it. -/
theorem apply_scan_frame {F0 : FS} (hG : GoodTree F0) {p : Path}
    (hp : p ∈ scanFiles (apply ⟨F0, none⟩).1.fs) :
    p ∈ scanFiles F0 ∧
    (∀ x ∈ leadersOf F0 (scanFiles F0), p ∉ membersOf F0 (scanFiles F0) x) ∧
    contentAt (apply ⟨F0, none⟩).1.fs p = contentAt F0 p := by
  obtain ⟨_, _, hsym, hframe, _, _⟩ := apply_fs_weak hG
  obtain ⟨⟨c, hc⟩, hmir⟩ := (mem_scanFiles (WFmap_apply hG) p).mp hp
  have hnotmem : ∀ x ∈ leadersOf F0 (scanFiles F0), p ∉ membersOf F0 (scanFiles F0) x := by
    intro x hx hmem
    have := hsym x hx p hmem
    rw [hc] at this
    cases this
  have hlook : mapLookup (apply ⟨F0, none⟩).1.fs p = mapLookup F0 p := by
    rw [hframe p hmir hnotmem, lookup_withDirs_nonmirage hmir]
  refine ⟨?_, hnotmem, ?_⟩
  · apply (mem_scanFiles hG.1 p).mpr
    exact ⟨⟨c, by rw [← hlook]; exact hc⟩, hmir⟩
  · unfold contentAt
    rw [hlook]

/-- No two distinct files of the second scan compare equal: a content-equal
pair would have been members of one duplicate class, hence symlinks now. -/
theorem second_scan_no_dups {F0 : FS} (hG : GoodTree F0) {p q : Path}
    (hp : p ∈ scanFiles (apply ⟨F0, none⟩).1.fs)
    (hq : q ∈ scanFiles (apply ⟨F0, none⟩).1.fs) (hne : p ≠ q) :
    checkSame (apply ⟨F0, none⟩).1.fs p q = false := by
  obtain ⟨hp0, hpnot, hpc⟩ := apply_scan_frame hG hp
  obtain ⟨hq0, _, hqc⟩ := apply_scan_frame hG hq
  by_contra hcs
  have hcs2 : checkSame (apply ⟨F0, none⟩).1.fs p q = true := by
    cases hcsv : checkSame (apply ⟨F0, none⟩).1.fs p q with
    | false => exact absurd hcsv hcs
    | true => rfl
  rw [checkSame_eq, hpc, hqc] at hcs2
  have hsame : sameContent F0 p q = true := hcs2
  -- the class leader of p is a planner leader with p among its members
  have hld := @leaderOf_spec F0 (scanFiles F0) _ hp0
  have hdupp : isDupFile F0 (scanFiles F0) p = true := by
    rw [isDupFile_iff]
    exact ⟨q, hq0, fun hc => hne hc.symm, sameContent_symm hsame⟩
  have hlx : leaderOf F0 (scanFiles F0) (leaderOf F0 (scanFiles F0) p) =
      leaderOf F0 (scanFiles F0) p := leaderOf_idem hp0
  have hdupx : isDupFile F0 (scanFiles F0) (leaderOf F0 (scanFiles F0) p) = true :=
    dup_of_leader_eq hp0 hdupp rfl
  have hxmem : leaderOf F0 (scanFiles F0) p ∈ leadersOf F0 (scanFiles F0) := by
    apply List.mem_filter.mpr
    refine ⟨hld.2.1, ?_⟩
    unfold isLeader
    rw [hdupx, hlx, Bool.true_and]
    exact beq_self_eq_true _
  have hpmem : p ∈ membersOf F0 (scanFiles F0) (leaderOf F0 (scanFiles F0) p) := by
    apply (mem_membersOf_iff _ _ _ _).mpr
    exact ⟨hp0, sameContent_symm hld.2.2⟩
  exact hpnot _ hxmem hpmem

theorem planPass_second {F0 : FS} (hG : GoodTree F0) (w : WAL) :
    planPass (apply ⟨F0, none⟩).1.fs w = w := by
  unfold planPass
  apply foldl_id
  intro here hhere
  apply foldl_id
  intro there hthere
  unfold planStep
  by_cases hht : here = there
  · rw [if_pos hht]
  · rw [if_neg hht, second_scan_no_dups hG hhere hthere hht]
    rfl

theorem isDirAt_of_dir {fs : FS} {p : Path} (h : mapLookup fs p = some Entry.dir) :
    isDirAt fs p = true := by
  unfold isDirAt
  rw [resolveLink_fuel_nonlink (fun t ht => by rw [h] at ht; cases ht)]
  simp [h]

theorem lookup_withDirs_mirageDir (F0 : FS) :
    mapLookup (withDirs F0) mirageDir = some Entry.dir := by
  unfold withDirs
  rw [mapLookup_cons, if_neg (Ne.symm mirageDir_ne_originalsDir), mapLookup_cons, if_pos rfl]

theorem lookup_withDirs_originalsDir (F0 : FS) :
    mapLookup (withDirs F0) originalsDir = some Entry.dir := by
  unfold withDirs
  rw [mapLookup_cons, if_pos rfl]

/-- The second `MirageState::get` finds the side-store directories intact and
reloads the journal the first run left behind. -/
theorem mirageGet_second {F0 : FS} (hG : GoodTree F0) :
    mirageGet (apply ⟨F0, none⟩).1 =
      Except.ok ((apply ⟨F0, none⟩).1.fs,
        WAL.mk ((leadersOf F0 (scanFiles F0)).flatMap (blockOf F0 (scanFiles F0)))
          (planPass (withDirs F0) WAL.empty).redirections
          ((leadersOf F0 (scanFiles F0)).flatMap (blockOf F0 (scanFiles F0))).length) := by
  obtain ⟨_, hj, _, _, _, hdirs⟩ := apply_fs_weak hG
  have hm1 : mapLookup (apply ⟨F0, none⟩).1.fs mirageDir = some Entry.dir := by
    rw [hdirs mirageDir mirageDir_mirage
        (fun x _ => Ne.symm (canonicalPathOf_ne_mirageDir x)),
      lookup_withDirs_mirageDir]
  have hm2 : mapLookup (apply ⟨F0, none⟩).1.fs originalsDir = some Entry.dir := by
    rw [hdirs originalsDir originalsDir_mirage
        (fun x _ => Ne.symm (canonicalPathOf_ne_originalsDir x)),
      lookup_withDirs_originalsDir]
  simp only [mirageGet, ensureDir, hm1, isDirAt_of_dir hm1, Option.isSome_some, Bool.not_true,
    Bool.and_false, Bool.false_eq_true, if_false, if_true, hm2, isDirAt_of_dir hm2, hj]

/-- Immediately re-running `apply` is a no-op: the rescan sees no duplicate
pair, the planner appends nothing, and the executor starts at a checkpoint
equal to the plan length, so it applies nothing. -/
theorem apply_second {F0 : FS} (hG : GoodTree F0) :
    apply (apply ⟨F0, none⟩).1 = ((apply ⟨F0, none⟩).1, none) := by
  obtain ⟨_, hj, _, _, _, _⟩ := apply_fs_weak hG
  have hmg := mirageGet_second hG
  have hpp := planPass_second hG
  set s1 := (apply ⟨F0, none⟩).1 with hs1
  unfold apply
  rw [hmg]
  dsimp only
  rw [hpp]
  unfold runExecutor
  dsimp only
  rw [List.drop_length]
  dsimp only [execActions]
  simp only [List.length_nil, Nat.add_zero]
  rw [← hj]

/-- C7: idempotence of `apply` — on a well-formed fresh tree the first
`apply` completes with no error, and running `apply` a second time
immediately afterwards returns the identical durable state (filesystem and
journal) with no error: no new actions are appended to the journal and no
file is copied, removed, or relinked during the second run. -/
theorem C7_apply_idempotent {F0 : FS} (hG : GoodTree F0) :
    (apply ⟨F0, none⟩).2 = none ∧
    apply (apply ⟨F0, none⟩).1 = ((apply ⟨F0, none⟩).1, none) :=
  ⟨(apply_fs_weak hG).1, apply_second hG⟩

theorem C7_apply_idempotent_witness :
    GoodTree scenarioATree ∧
    ((apply ⟨scenarioATree, none⟩).2 = none ∧
     apply (apply ⟨scenarioATree, none⟩).1 = ((apply ⟨scenarioATree, none⟩).1, none)) :=
  ⟨by unfold GoodTree WFmap; decide,
   C7_apply_idempotent (by unfold GoodTree WFmap; decide)⟩

/-! ## Canonical-path collision (C9) -/

/-- C9 is refuted by `collisionTree2`: its two content-equivalence classes
(`p/y ~ q/y` with bytes `[1,2]`, `r/y ~ s/y` with bytes `[3,4]`) have
first-planned members that share the basename `y`, so both classes plan the
canonical path `.mirage/originals/y`.  `apply` completes without error, yet
the canonical copy ends up holding the second class's bytes `[3,4]` and the
first class's member `p/y` — originally `[1,2]` — is left a symlink to it:
the second class's `fs::copy` silently overwrote the first class's canonical
copy. -/
theorem C9_canonical_collision_overwrite :
    (apply ⟨collisionTree2, none⟩).2 = none ∧
    contentAt collisionTree2 ["p", "y"] = [1, 2] ∧
    contentAt collisionTree2 ["r", "y"] = [3, 4] ∧
    sameContent collisionTree2 ["p", "y"] ["r", "y"] = false ∧
    mapLookup (apply ⟨collisionTree2, none⟩).1.fs [".mirage", "originals", "y"] =
      some (Entry.file [3, 4]) ∧
    mapLookup (apply ⟨collisionTree2, none⟩).1.fs ["p", "y"] =
      some (Entry.symlink [".mirage", "originals", "y"]) := by
  have hG : GoodTree collisionTree2 := by
    unfold GoodTree WFmap
    decide
  rw [apply_run hG]
  decide

/-! ## The reverter's replay on a post-apply state -/

/-- Replaying an inverted `Symlink` (a `Copy` from the canonical copy `P`
back over the member `m`): the symlink at `m` is removed and the canonical
bytes are written back as a regular file. -/
theorem execRevert_copy_ok {fs : FS} {P m : Path} {c : List Byte}
    (hP : mapLookup fs P = some (Entry.file c))
    (hm : mapLookup fs m = some (Entry.symlink P)) :
    execRevertAction fs ⟨ActionType.Copy, P, m⟩ =
      Except.ok (mapInsert (mapErase fs m) m (Entry.file c)) := by
  have hmP : m ≠ P := by
    intro hc
    rw [hc, hP] at hm
    cases hm
  have hex : pathExists fs m = true := pathExists_via_symlink hm hP
  have he1 : mapLookup (mapErase fs m) P = some (Entry.file c) := by
    rw [mapLookup_mapErase, if_neg (fun hc => hmP hc.symm)]
    exact hP
  have he2 : mapLookup (mapErase fs m) m = none := by
    rw [mapLookup_mapErase, if_pos rfl]
  have hrc : resolveFileContent (mapErase fs m) P = some c := resolveFileContent_file he1
  have hrl : resolveLink (mapErase fs m) linkFuel m = some m :=
    resolveLink_fuel_nonlink (fun t ht => by rw [he2] at ht; cases ht)
  simp only [execRevertAction, hex, if_true, hm, hrc, hrl, he2]

theorem execRevert_nop (fs : FS) (s t : Path) :
    execRevertAction fs ⟨ActionType.NOP, s, t⟩ = Except.ok fs := rfl

theorem runRevertActions_append (l1 : List Action) : ∀ (l2 : List Action) (fs : FS),
    (runRevertActions fs l1).2 = none →
    runRevertActions fs (l1 ++ l2) = runRevertActions (runRevertActions fs l1).1 l2 := by
  induction l1 with
  | nil =>
    intro l2 fs _
    rfl
  | cons a l1 ih =>
    intro l2 fs h
    cases hea : execRevertAction fs a with
    | error e =>
      exfalso
      unfold runRevertActions at h
      rw [hea] at h
      cases h
    | ok fs1 =>
      have h1 : runRevertActions fs (a :: l1) = runRevertActions fs1 l1 := by
        simp only [runRevertActions, hea]
      have h2 : runRevertActions fs ((a :: l1) ++ l2) = runRevertActions fs1 (l1 ++ l2) := by
        show runRevertActions fs (a :: (l1 ++ l2)) = runRevertActions fs1 (l1 ++ l2)
        simp only [runRevertActions, hea]
      rw [h2, h1, ih l2 fs1 (by rw [← h1]; exact h)]

/-- Restoring a run of members from one canonical copy: each `Copy P m`
turns the symlink at `m` back into a regular file holding `P`'s bytes. -/
theorem revert_copies (P : Path) (c : List Byte) :
    ∀ (ms : List Path) (fs : FS),
      ms.Nodup →
      mapLookup fs P = some (Entry.file c) →
      (∀ m ∈ ms, mapLookup fs m = some (Entry.symlink P)) →
      (runRevertActions fs (ms.map (fun m => Action.mk ActionType.Copy P m))).2 = none ∧
      (∀ p, mapLookup (runRevertActions fs
          (ms.map (fun m => Action.mk ActionType.Copy P m))).1 p =
        if p ∈ ms then some (Entry.file c) else mapLookup fs p) := by
  intro ms
  induction ms with
  | nil =>
    intro fs _ _ _
    refine ⟨rfl, ?_⟩
    intro p
    rw [if_neg (List.not_mem_nil p)]
    rfl
  | cons m ms ih =>
    intro fs hnd hP hms
    have hm : mapLookup fs m = some (Entry.symlink P) := hms m (List.mem_cons_self _ _)
    have hstep := execRevert_copy_ok hP hm
    have hmP : m ≠ P := by
      intro hc
      rw [hc, hP] at hm
      cases hm
    have hrun : runRevertActions fs ((m :: ms).map (fun m => Action.mk ActionType.Copy P m)) =
        runRevertActions (mapInsert (mapErase fs m) m (Entry.file c))
          (ms.map (fun m => Action.mk ActionType.Copy P m)) := by
      show runRevertActions fs (Action.mk ActionType.Copy P m ::
          ms.map (fun m => Action.mk ActionType.Copy P m)) = _
      simp only [runRevertActions, hstep]
    have hlook : ∀ q, mapLookup (mapInsert (mapErase fs m) m (Entry.file c)) q =
        if q = m then some (Entry.file c) else mapLookup fs q := by
      intro q
      rw [mapLookup_mapInsert]
      by_cases hqm : q = m
      · rw [if_pos hqm, if_pos hqm]
      · rw [if_neg hqm, if_neg hqm, mapLookup_mapErase, if_neg hqm]
    have hP1 : mapLookup (mapInsert (mapErase fs m) m (Entry.file c)) P =
        some (Entry.file c) := by
      rw [hlook P, if_neg (fun hc => hmP hc.symm)]
      exact hP
    have hms1 : ∀ m' ∈ ms, mapLookup (mapInsert (mapErase fs m) m (Entry.file c)) m' =
        some (Entry.symlink P) := by
      intro m' hm'
      rw [hlook m', if_neg (fun hc : m' = m => (List.nodup_cons.mp hnd).1 (hc ▸ hm'))]
      exact hms m' (List.mem_cons_of_mem _ hm')
    obtain ⟨herr, hchar⟩ := ih (mapInsert (mapErase fs m) m (Entry.file c))
      (List.nodup_cons.mp hnd).2 hP1 hms1
    refine ⟨by rw [hrun]; exact herr, ?_⟩
    intro p
    rw [hrun, hchar p, hlook p]
    by_cases hpms : p ∈ ms
    · rw [if_pos hpms, if_pos (List.mem_cons_of_mem _ hpms)]
    · rw [if_neg hpms]
      by_cases hpm : p = m
      · rw [if_pos hpm, if_pos (List.mem_cons.mpr (Or.inl hpm))]
      · rw [if_neg hpm, if_neg (fun hc => by
          rcases List.mem_cons.mp hc with h1 | h1
          · exact hpm h1
          · exact hpms h1)]

/-- A planner block, reversed and inverted, is: one `Copy`-back per tail
member (in reverse discovery order), a `Copy`-back for the leader, and the
`NoOp` that the block's `Copy` inverts to. -/
theorem revBlock_eq (fs0 : FS) (files : List Path) (x : Path) (tl : List Path)
    (htl : membersOf fs0 files x = x :: tl) :
    ((blockOf fs0 files x).reverse).map Action.invert =
      ((tl.reverse ++ [x]).map (fun m => Action.mk ActionType.Copy (canonicalPathOf x) m)) ++
        [Action.mk ActionType.NOP (canonicalPathOf x) x] := by
  unfold blockOf
  rw [htl, List.tail_cons]
  simp [Action.invert]

/-- Replaying one reversed block restores every class member to a regular
file holding the canonical copy's bytes and touches nothing else. -/
theorem revert_block (fs0 : FS) (files : List Path) (x : Path) (tl : List Path) (fs : FS)
    (htl : membersOf fs0 files x = x :: tl)
    (hnd : (x :: tl).Nodup)
    (hP : mapLookup fs (canonicalPathOf x) = some (Entry.file (contentAt fs0 x)))
    (hms : ∀ m ∈ x :: tl, mapLookup fs m = some (Entry.symlink (canonicalPathOf x))) :
    (runRevertActions fs (((blockOf fs0 files x).reverse).map Action.invert)).2 = none ∧
    (∀ p, mapLookup (runRevertActions fs
        (((blockOf fs0 files x).reverse).map Action.invert)).1 p =
      if p ∈ x :: tl then some (Entry.file (contentAt fs0 x)) else mapLookup fs p) := by
  have hmem : ∀ p, p ∈ tl.reverse ++ [x] ↔ p ∈ x :: tl := by
    intro p
    simp [List.mem_append, List.mem_reverse, or_comm]
  have hnd2 : (tl.reverse ++ [x]).Nodup := by
    have hperm : (tl.reverse ++ [x]).Perm ([x] ++ tl.reverse) := List.perm_append_comm
    apply hperm.nodup_iff.mpr
    show (x :: tl.reverse).Nodup
    rw [List.nodup_cons] at hnd ⊢
    exact ⟨fun hc => hnd.1 (List.mem_reverse.mp hc), List.nodup_reverse.mpr hnd.2⟩
  obtain ⟨herr, hchar⟩ := revert_copies (canonicalPathOf x) (contentAt fs0 x)
    (tl.reverse ++ [x]) fs hnd2 hP (fun m hm => hms m ((hmem m).mp hm))
  rw [revBlock_eq fs0 files x tl htl]
  rw [runRevertActions_append _ _ fs herr]
  have hnop : ∀ fs2 : FS, runRevertActions fs2
      [Action.mk ActionType.NOP (canonicalPathOf x) x] = (fs2, none) := fun _ => rfl
  rw [hnop]
  refine ⟨rfl, ?_⟩
  intro p
  rw [hchar p]
  by_cases hp : p ∈ x :: tl
  · rw [if_pos ((hmem p).mpr hp), if_pos hp]
  · rw [if_neg (fun hc => hp ((hmem p).mp hc)), if_neg hp]

/-- Replaying the reversed blocks of a list of leaders: every member of
every class is restored to its class's canonical bytes; everything else is
untouched. -/
theorem revert_leaders (fs0 : FS) (files : List Path) :
    ∀ (Ls : List Path) (fs : FS),
      Ls.Nodup →
      (∀ x ∈ Ls, ∃ tl, membersOf fs0 files x = x :: tl) →
      (∀ x ∈ Ls, (membersOf fs0 files x).Nodup) →
      (∀ x ∈ Ls, ∀ m ∈ membersOf fs0 files x, isMiragePath m = false) →
      (∀ x ∈ Ls, ∀ y ∈ Ls, x ≠ y →
        ∀ m ∈ membersOf fs0 files x, m ∉ membersOf fs0 files y) →
      (∀ x ∈ Ls, mapLookup fs (canonicalPathOf x) = some (Entry.file (contentAt fs0 x))) →
      (∀ x ∈ Ls, ∀ m ∈ membersOf fs0 files x,
        mapLookup fs m = some (Entry.symlink (canonicalPathOf x))) →
      (runRevertActions fs (Ls.flatMap
          (fun x => ((blockOf fs0 files x).reverse).map Action.invert))).2 = none ∧
      (∀ x ∈ Ls, ∀ m ∈ membersOf fs0 files x,
        mapLookup (runRevertActions fs (Ls.flatMap
          (fun x => ((blockOf fs0 files x).reverse).map Action.invert))).1 m =
          some (Entry.file (contentAt fs0 x))) ∧
      (∀ p, (∀ x ∈ Ls, p ∉ membersOf fs0 files x) →
        mapLookup (runRevertActions fs (Ls.flatMap
          (fun x => ((blockOf fs0 files x).reverse).map Action.invert))).1 p =
          mapLookup fs p) := by
  intro Ls
  induction Ls with
  | nil =>
    intro fs _ _ _ _ _ _ _
    refine ⟨rfl, by simp, ?_⟩
    intro p _
    rfl
  | cons x Ls ih =>
    intro fs hndL hhead hndm hmir hdisj hP hsym
    have hxLs : x ∉ Ls := (List.nodup_cons.mp hndL).1
    obtain ⟨tl, htl⟩ := hhead x (List.mem_cons_self _ _)
    have hndx : (x :: tl).Nodup := htl ▸ hndm x (List.mem_cons_self _ _)
    obtain ⟨herrB, hcharB⟩ := revert_block fs0 files x tl fs htl hndx
      (hP x (List.mem_cons_self _ _))
      (fun m hm => hsym x (List.mem_cons_self _ _) m (htl ▸ hm))
    have hfm : (x :: Ls).flatMap (fun x => ((blockOf fs0 files x).reverse).map Action.invert) =
        ((blockOf fs0 files x).reverse).map Action.invert ++
          Ls.flatMap (fun x => ((blockOf fs0 files x).reverse).map Action.invert) :=
      List.flatMap_cons _ _ _
    have happ := runRevertActions_append _
      (Ls.flatMap (fun x => ((blockOf fs0 files x).reverse).map Action.invert)) fs herrB
    -- the post-block filesystem still satisfies the pack for the remaining leaders
    have hP1 : ∀ y ∈ Ls, mapLookup (runRevertActions fs
        (((blockOf fs0 files x).reverse).map Action.invert)).1 (canonicalPathOf y) =
        some (Entry.file (contentAt fs0 y)) := by
      intro y hy
      rw [hcharB (canonicalPathOf y), if_neg (fun hc => by
        have := hmir x (List.mem_cons_self _ _) (canonicalPathOf y) (htl ▸ hc)
        rw [canonicalPathOf_mirage] at this
        cases this)]
      exact hP y (List.mem_cons_of_mem _ hy)
    have hsym1 : ∀ y ∈ Ls, ∀ m ∈ membersOf fs0 files y,
        mapLookup (runRevertActions fs
          (((blockOf fs0 files x).reverse).map Action.invert)).1 m =
        some (Entry.symlink (canonicalPathOf y)) := by
      intro y hy m hm
      have hxy : x ≠ y := fun hc => hxLs (hc ▸ hy)
      have hmnx : m ∉ membersOf fs0 files x :=
        hdisj y (List.mem_cons_of_mem _ hy) x (List.mem_cons_self _ _)
          (fun hc => hxy hc.symm) m hm
      rw [hcharB m, if_neg (htl ▸ hmnx)]
      exact hsym y (List.mem_cons_of_mem _ hy) m hm
    obtain ⟨herrR, hmemR, hframeR⟩ :=
      ih (runRevertActions fs (((blockOf fs0 files x).reverse).map Action.invert)).1
        (List.nodup_cons.mp hndL).2
        (fun y hy => hhead y (List.mem_cons_of_mem _ hy))
        (fun y hy => hndm y (List.mem_cons_of_mem _ hy))
        (fun y hy => hmir y (List.mem_cons_of_mem _ hy))
        (fun y hy z hz => hdisj y (List.mem_cons_of_mem _ hy) z (List.mem_cons_of_mem _ hz))
        hP1 hsym1
    refine ⟨?_, ?_, ?_⟩
    · rw [hfm, happ]
      exact herrR
    · intro y hy m hm
      rw [hfm, happ]
      rcases List.mem_cons.mp hy with hyx | hyLs
      · subst hyx
        have hnotin : ∀ z ∈ Ls, m ∉ membersOf fs0 files z := by
          intro z hz
          exact hdisj y (List.mem_cons_self _ _) z (List.mem_cons_of_mem _ hz)
            (fun hc => hxLs (hc ▸ hz)) m hm
        rw [hframeR m hnotin, hcharB m, if_pos (htl ▸ hm)]
      · exact hmemR y hyLs m hm
    · intro p hnot
      rw [hfm, happ, hframeR p (fun z hz => hnot z (List.mem_cons_of_mem _ hz)),
        hcharB p, if_neg (htl ▸ hnot x (List.mem_cons_self _ _))]

theorem canonicalPathOf_inj {x y : Path} (h : basename x ≠ basename y) :
    canonicalPathOf x ≠ canonicalPathOf y := by
  intro hc
  apply h
  unfold canonicalPathOf originalsDir at hc
  simpa using hc

/-- Under the basename-uniqueness condition, distinct planner leaders plan
distinct canonical paths. -/
theorem leaders_canon_distinct {F0 : FS} (hB : DistinctCanonicalBasenames F0) :
    ∀ x ∈ leadersOf F0 (scanFiles F0), ∀ y ∈ leadersOf F0 (scanFiles F0), x ≠ y →
      canonicalPathOf x ≠ canonicalPathOf y := by
  intro x hx y hy hxy
  obtain ⟨hxf, hlx, hdx⟩ := mem_leadersOf hx
  obtain ⟨hyf, hly, hdy⟩ := mem_leadersOf hy
  have hsc : sameContent F0 x y = false := by
    cases hscv : sameContent F0 x y with
    | false => rfl
    | true =>
      exfalso
      apply hxy
      have hll := leaderOf_congr hxf hscv
      rw [hlx, hly] at hll
      exact hll
  have hbn := hB x hxf y hyf hdx hdy hsc
  rw [hlx, hly] at hbn
  exact canonicalPathOf_inj hbn

/-- With distinct canonical basenames, after `apply` every class's canonical
copy holds exactly that class's bytes. -/
theorem apply_fs_strong {F0 : FS} (hG : GoodTree F0) (hB : DistinctCanonicalBasenames F0) :
    ∀ x ∈ leadersOf F0 (scanFiles F0),
      mapLookup (apply ⟨F0, none⟩).1.fs (canonicalPathOf x) =
        some (Entry.file (contentAt F0 x)) := by
  obtain ⟨hndL, hhead, hndm, hfiles, hdisj, hPfs⟩ := leaders_pack hG
  have hfiles2 : ∀ x ∈ leadersOf F0 (scanFiles F0), ∀ m ∈ membersOf F0 (scanFiles F0) x,
      isMiragePath m = false ∧
      mapLookup (withDirs F0) m = some (Entry.file (contentAt F0 m)) := by
    intro x hx m hm
    have := hfiles x hx m hm
    rwa [contentAt_withDirs hG] at this
  obtain ⟨hcanon, _⟩ :=
    exec_leaders_strong F0 (scanFiles F0) (leadersOf F0 (scanFiles F0)) (withDirs F0) 0
      hndL hhead hndm hfiles2 hdisj hPfs (leaders_canon_distinct hB)
  intro x hx
  rw [apply_run hG]
  exact hcanon x hx

theorem WFmap_execRevertAction {fs fs1 : FS} (hw : WFmap fs) {a : Action}
    (h : execRevertAction fs a = Except.ok fs1) : WFmap fs1 := by
  unfold execRevertAction at h
  cases hact : a.action with
  | Copy =>
    by_cases hex : pathExists fs a.target = true
    · cases hlt : mapLookup fs a.target with
      | none =>
        have hw1 : WFmap (mapErase fs a.target) := WFmap_mapErase hw _
        cases hrc : resolveFileContent (mapErase fs a.target) a.source with
        | none => simp [hact, hex, hlt, hrc] at h
        | some c =>
          cases hrl : resolveLink (mapErase fs a.target) linkFuel a.target with
          | none => simp [hact, hex, hlt, hrc, hrl] at h
          | some q =>
            cases hlq : mapLookup (mapErase fs a.target) q with
            | none =>
              simp only [hact, hex, if_true, hlt, hrc, hrl, hlq, Except.ok.injEq] at h
              rw [← h]
              exact WFmap_mapInsert hw1 q _
            | some e =>
              cases e with
              | dir => simp [hact, hex, hlt, hrc, hrl, hlq] at h
              | file c2 =>
                simp only [hact, hex, if_true, hlt, hrc, hrl, hlq, Except.ok.injEq] at h
                rw [← h]
                exact WFmap_mapInsert hw1 q _
              | symlink t =>
                simp only [hact, hex, if_true, hlt, hrc, hrl, hlq, Except.ok.injEq] at h
                rw [← h]
                exact WFmap_mapInsert hw1 q _
      | some e0 =>
        cases e0 with
        | dir => simp [hact, hex, hlt] at h
        | file c0 =>
          have hw1 : WFmap (mapErase fs a.target) := WFmap_mapErase hw _
          cases hrc : resolveFileContent (mapErase fs a.target) a.source with
          | none => simp [hact, hex, hlt, hrc] at h
          | some c =>
            cases hrl : resolveLink (mapErase fs a.target) linkFuel a.target with
            | none => simp [hact, hex, hlt, hrc, hrl] at h
            | some q =>
              cases hlq : mapLookup (mapErase fs a.target) q with
              | none =>
                simp only [hact, hex, if_true, hlt, hrc, hrl, hlq, Except.ok.injEq] at h
                rw [← h]
                exact WFmap_mapInsert hw1 q _
              | some e =>
                cases e with
                | dir => simp [hact, hex, hlt, hrc, hrl, hlq] at h
                | file c2 =>
                  simp only [hact, hex, if_true, hlt, hrc, hrl, hlq, Except.ok.injEq] at h
                  rw [← h]
                  exact WFmap_mapInsert hw1 q _
                | symlink t =>
                  simp only [hact, hex, if_true, hlt, hrc, hrl, hlq, Except.ok.injEq] at h
                  rw [← h]
                  exact WFmap_mapInsert hw1 q _
        | symlink t0 =>
          have hw1 : WFmap (mapErase fs a.target) := WFmap_mapErase hw _
          cases hrc : resolveFileContent (mapErase fs a.target) a.source with
          | none => simp [hact, hex, hlt, hrc] at h
          | some c =>
            cases hrl : resolveLink (mapErase fs a.target) linkFuel a.target with
            | none => simp [hact, hex, hlt, hrc, hrl] at h
            | some q =>
              cases hlq : mapLookup (mapErase fs a.target) q with
              | none =>
                simp only [hact, hex, if_true, hlt, hrc, hrl, hlq, Except.ok.injEq] at h
                rw [← h]
                exact WFmap_mapInsert hw1 q _
              | some e =>
                cases e with
                | dir => simp [hact, hex, hlt, hrc, hrl, hlq] at h
                | file c2 =>
                  simp only [hact, hex, if_true, hlt, hrc, hrl, hlq, Except.ok.injEq] at h
                  rw [← h]
                  exact WFmap_mapInsert hw1 q _
                | symlink t =>
                  simp only [hact, hex, if_true, hlt, hrc, hrl, hlq, Except.ok.injEq] at h
                  rw [← h]
                  exact WFmap_mapInsert hw1 q _
    · cases hrc : resolveFileContent fs a.source with
      | none => simp [hact, hex, hrc] at h
      | some c =>
        cases hrl : resolveLink fs linkFuel a.target with
        | none => simp [hact, hex, hrc, hrl] at h
        | some q =>
          cases hlq : mapLookup fs q with
          | none =>
            simp only [hact, hex, Bool.false_eq_true, if_false, hrc, hrl, hlq,
              Except.ok.injEq] at h
            rw [← h]
            exact WFmap_mapInsert hw q _
          | some e =>
            cases e with
            | dir => simp [hact, hex, hrc, hrl, hlq] at h
            | file c2 =>
              simp only [hact, hex, Bool.false_eq_true, if_false, hrc, hrl, hlq,
                Except.ok.injEq] at h
              rw [← h]
              exact WFmap_mapInsert hw q _
            | symlink t =>
              simp only [hact, hex, Bool.false_eq_true, if_false, hrc, hrl, hlq,
                Except.ok.injEq] at h
              rw [← h]
              exact WFmap_mapInsert hw q _
  | Symlink =>
    by_cases hs1 : (mapLookup fs a.target).isSome = true
    · simp [hact, hs1] at h
    · simp only [hact, hs1, Bool.false_eq_true, if_false, Except.ok.injEq] at h
      rw [← h]
      exact WFmap_mapInsert hw _ _
  | NOP =>
    rw [hact] at h
    simp only [Except.ok.injEq] at h
    rw [← h]
    exact hw

theorem WFmap_runRevertActions (l : List Action) : ∀ (fs : FS), WFmap fs →
    WFmap (runRevertActions fs l).1 := by
  induction l with
  | nil =>
    intro fs hw
    exact hw
  | cons a rest ih =>
    intro fs hw
    unfold runRevertActions
    cases hea : execRevertAction fs a with
    | error e => exact hw
    | ok fs1 => exact ih fs1 (WFmap_execRevertAction hw hea)

theorem isMirageTop_isMiragePath {p : Path} (h : isMirageTop p = true) :
    isMiragePath p = true := by
  cases p with
  | nil => cases h
  | cons s rest =>
    have hs : s = ".mirage" := by
      unfold isMirageTop at h
      exact of_decide_eq_true h
    unfold isMiragePath
    rw [List.any_cons, hs]
    have : isMirageName ".mirage" = true := by decide
    rw [this, Bool.true_or]

theorem canonicalPathOf_top (x : Path) : isMirageTop (canonicalPathOf x) = true := rfl

theorem mirageDir_top : isMirageTop mirageDir = true := by decide

theorem originalsDir_top : isMirageTop originalsDir = true := by decide

theorem lookup_withDirs_of_not_top {F0 : FS} {p : Path} (h : isMirageTop p = false) :
    mapLookup (withDirs F0) p = mapLookup F0 p := by
  unfold withDirs
  rw [mapLookup_cons, if_neg (fun hc => by rw [← hc] at h; rw [originalsDir_top] at h; cases h),
    mapLookup_cons, if_neg (fun hc => by rw [← hc] at h; rw [mirageDir_top] at h; cases h)]

theorem reverse_flatMap_map {α β γ : Type} (g : β → γ) :
    ∀ (l : List α) (f : α → List β),
      ((l.flatMap f).reverse).map g = l.reverse.flatMap (fun a => ((f a).reverse).map g) := by
  intro l f
  induction l with
  | nil => rfl
  | cons a l ih =>
    rw [List.flatMap_cons, List.reverse_append, List.map_append, ih, List.reverse_cons,
      List.flatMap_append]
    simp

/-- Full behavior of `revert` run immediately after a completed `apply` on a
well-formed tree with distinct canonical basenames: no error, the journal is
gone, and the filesystem map equals the original extensionally. -/
theorem revert_run {F0 : FS} (hG : GoodTree F0) (hB : DistinctCanonicalBasenames F0) :
    (revert (apply ⟨F0, none⟩).1).2 = none ∧
    (revert (apply ⟨F0, none⟩).1).1.journal = none ∧
    (∀ p, mapLookup (revert (apply ⟨F0, none⟩).1).1.fs p = mapLookup F0 p) := by
  obtain ⟨hndL, hhead, hndm, hfilesP, hdisj, _⟩ := leaders_pack hG
  obtain ⟨herrA, hj, hsym, hframe, _, hdirs⟩ := apply_fs_weak hG
  have hstrong := apply_fs_strong hG hB
  have hmirM : ∀ x ∈ leadersOf F0 (scanFiles F0), ∀ m ∈ membersOf F0 (scanFiles F0) x,
      isMiragePath m = false := fun x hx m hm => (hfilesP x hx m hm).1
  obtain ⟨herrR, hmemR, hframeR⟩ := revert_leaders F0 (scanFiles F0)
    (leadersOf F0 (scanFiles F0)).reverse (apply ⟨F0, none⟩).1.fs
    (List.nodup_reverse.mpr hndL)
    (fun x hx => hhead x (List.mem_reverse.mp hx))
    (fun x hx => hndm x (List.mem_reverse.mp hx))
    (fun x hx => hmirM x (List.mem_reverse.mp hx))
    (fun x hx y hy => hdisj x (List.mem_reverse.mp hx) y (List.mem_reverse.mp hy))
    (fun x hx => hstrong x (List.mem_reverse.mp hx))
    (fun x hx => hsym x (List.mem_reverse.mp hx))
  have hrep : revertReplay (WAL.mk
      ((leadersOf F0 (scanFiles F0)).flatMap (blockOf F0 (scanFiles F0)))
      (planPass (withDirs F0) WAL.empty).redirections
      ((leadersOf F0 (scanFiles F0)).flatMap (blockOf F0 (scanFiles F0))).length) =
      (leadersOf F0 (scanFiles F0)).reverse.flatMap
        (fun x => ((blockOf F0 (scanFiles F0) x).reverse).map Action.invert) := by
    unfold revertReplay
    dsimp only
    rw [Nat.sub_self, List.drop_zero, reverse_flatMap_map]
  have hrun_eq : runRevertActions (apply ⟨F0, none⟩).1.fs
      ((leadersOf F0 (scanFiles F0)).reverse.flatMap
        (fun x => ((blockOf F0 (scanFiles F0) x).reverse).map Action.invert)) =
      ((runRevertActions (apply ⟨F0, none⟩).1.fs
        ((leadersOf F0 (scanFiles F0)).reverse.flatMap
          (fun x => ((blockOf F0 (scanFiles F0) x).reverse).map Action.invert))).1, none) := by
    exact Prod.ext rfl herrR
  have hrev : revert (apply ⟨F0, none⟩).1 =
      (⟨removeSideStore (runRevertActions (apply ⟨F0, none⟩).1.fs
          ((leadersOf F0 (scanFiles F0)).reverse.flatMap
            (fun x => ((blockOf F0 (scanFiles F0) x).reverse).map Action.invert))).1,
        none⟩, none) := by
    unfold revert
    rw [mirageGet_second hG]
    dsimp only
    rw [hrep, hrun_eq]
  have hw1 : WFmap (runRevertActions (apply ⟨F0, none⟩).1.fs
      ((leadersOf F0 (scanFiles F0)).reverse.flatMap
        (fun x => ((blockOf F0 (scanFiles F0) x).reverse).map Action.invert))).1 :=
    WFmap_runRevertActions _ _ (WFmap_apply hG)
  refine ⟨by rw [hrev], by rw [hrev], ?_⟩
  intro p
  rw [hrev]
  show mapLookup (removeSideStore _) p = mapLookup F0 p
  unfold removeSideStore
  rw [mapLookup_filter hw1]
  by_cases htop : isMirageTop p = true
  · rw [lookup_none_of_mirage hG (isMirageTop_isMiragePath htop)]
    cases hfs1 : mapLookup (runRevertActions (apply ⟨F0, none⟩).1.fs
        ((leadersOf F0 (scanFiles F0)).reverse.flatMap
          (fun x => ((blockOf F0 (scanFiles F0) x).reverse).map Action.invert))).1 p with
    | none => rfl
    | some v => simp [htop]
  · have htop' : isMirageTop p = false := by
      cases hv : isMirageTop p with
      | false => rfl
      | true => exact absurd hv htop
    have hmain : mapLookup (runRevertActions (apply ⟨F0, none⟩).1.fs
        ((leadersOf F0 (scanFiles F0)).reverse.flatMap
          (fun x => ((blockOf F0 (scanFiles F0) x).reverse).map Action.invert))).1 p =
        mapLookup F0 p := by
      by_cases hmem : ∀ x ∈ (leadersOf F0 (scanFiles F0)).reverse,
          p ∉ membersOf F0 (scanFiles F0) x
      · rw [hframeR p hmem]
        by_cases hmir : isMiragePath p = true
        · rw [hdirs p hmir (fun x _ hc => by rw [hc, canonicalPathOf_top] at htop'; cases htop'),
            lookup_withDirs_of_not_top htop']
        · have hmir' : isMiragePath p = false := by
            cases hv : isMiragePath p with
            | false => rfl
            | true => exact absurd hv hmir
          rw [hframe p hmir' (fun x hx => hmem x (List.mem_reverse.mpr hx)),
            lookup_withDirs_of_not_top htop']
      · push_neg at hmem
        obtain ⟨x, hx, hpx⟩ := hmem
        rw [hmemR x hx p hpx]
        have hpf : p ∈ scanFiles F0 := ((mem_membersOf_iff _ _ _ _).mp hpx).1
        have hcc : contentAt F0 p = contentAt F0 x :=
          (sameContent_iff _ _ _).mp ((mem_membersOf_iff _ _ _ _).mp hpx).2
        rw [scan_lookup hG.1 hpf, hcc]
    rw [hmain]
    cases hF0 : mapLookup F0 p with
    | none => rfl
    | some v => simp [htop']

/-- C1 (amended): on a well-formed tree (no reserved `.mirage` names, no
pre-existing symlinks) whose distinct content-equivalence classes plan
distinct canonical basenames, `revert` after a completed `apply` restores
every path to its original entry — every file byte-identical at its original
path — and removes the side-store (journal included) entirely.  The
distinct-basename hypothesis is necessary: `C1_round_trip_cx` shows the
round trip corrupting a file on a tree free of the §9 redirection ambiguity
but with colliding canonical basenames. -/
theorem C1_round_trip {F0 : FS} (hG : GoodTree F0) (hB : DistinctCanonicalBasenames F0) :
    (apply ⟨F0, none⟩).2 = none ∧
    (revert (apply ⟨F0, none⟩).1).2 = none ∧
    (revert (apply ⟨F0, none⟩).1).1.journal = none ∧
    (∀ p, mapLookup (revert (apply ⟨F0, none⟩).1).1.fs p = mapLookup F0 p) := by
  obtain ⟨h1, h2, h3⟩ := revert_run hG hB
  exact ⟨(apply_fs_weak hG).1, h1, h2, h3⟩

theorem C1_round_trip_witness :
    (GoodTree scenarioATree ∧ DistinctCanonicalBasenames scenarioATree) ∧
    ((apply ⟨scenarioATree, none⟩).2 = none ∧
     (revert (apply ⟨scenarioATree, none⟩).1).2 = none ∧
     (revert (apply ⟨scenarioATree, none⟩).1).1.journal = none ∧
     (∀ p, mapLookup (revert (apply ⟨scenarioATree, none⟩).1).1.fs p =
        mapLookup scenarioATree p)) :=
  ⟨⟨by unfold GoodTree WFmap; decide, by unfold DistinctCanonicalBasenames; decide⟩,
   C1_round_trip (by unfold GoodTree WFmap; decide)
     (by unfold DistinctCanonicalBasenames; decide)⟩

/-- The round trip as originally claimed fails on `collisionTree`, a
well-formed tree with two disjoint equivalence classes (`a/x = b/x = [65]`,
`c/x = d/x = [66]`) and no §9 redirection ambiguity: both `apply` and
`revert` report success, yet `a/x` comes back holding `[66]` — the other
class's bytes — because both classes shared the canonical copy
`.mirage/originals/x`. -/
theorem C1_round_trip_cx :
    GoodTree collisionTree ∧
    (apply ⟨collisionTree, none⟩).2 = none ∧
    (revert (apply ⟨collisionTree, none⟩).1).2 = none ∧
    mapLookup collisionTree ["a", "x"] = some (Entry.file [65]) ∧
    mapLookup (revert (apply ⟨collisionTree, none⟩).1).1.fs ["a", "x"] =
      some (Entry.file [66]) := by
  have hG : GoodTree collisionTree := by
    unfold GoodTree WFmap
    decide
  refine ⟨hG, ?_⟩
  rw [apply_run hG]
  decide

end Mirage
